import Mathlib

/-!
# Verification of the anondb specification against its source

This file shallowly embeds the parts of the anondb repository that the
specification talks about:

* the lexicographic codec (`anondb-kv/src/lexicographic.rs`),
* the compound key builder (`anondb-kv/src/lexicographic/key.rs`),
* the query parameter model and the planner (`anondb/src/query.rs`,
  `anondb/src/index.rs`),
* index selection in `Collection::find_one` / `find_many`
  (`anondb/src/collection.rs`),
* `Collection::insert` and `Index::insert`,
* the redb-backed read operations (`anondb-kv/src/kv_redb/`),
* the journal (`src/journal.rs`, `src/active_transaction.rs`,
  `src/table.rs`, `src/lib.rs`).

Machine bytes are modelled as `Nat` (every byte produced by the embedded
code is < 256 where it matters; bounds appear as explicit hypotheses).
Rust `Vec<u8>` / `&[u8]` become `List Nat`, and the derived `Ord` on byte
slices becomes the executable comparator `cmpL` below.  Fallible Rust code
(`anyhow::Result`) becomes `Except String`; a `panic!` / `unreachable!` /
`unimplemented!` in the source is modelled as an `Except.error` whose
message records that it is a panic.  The BLAKE3 hash and the MessagePack
serializer are external dependencies of the repository; they are modelled
as an abstract function parameter `hashTx` (collision resistance appears,
where needed, as an injectivity-style hypothesis).
-/

namespace AnonDB

/-- A byte. Values produced by the embedded code are < 256. -/
abbrev Byte := Nat

/-- A byte string (`Vec<u8>` / `&[u8]`). -/
abbrev Bytes := List Nat

/-- Byte-lexicographic comparison: the derived `Ord` of Rust byte slices
(`&[u8]`, `Vec<u8>`), which compares element-wise and breaks ties by
length. -/
def cmpL : Bytes → Bytes → Ordering
  | [], [] => .eq
  | [], _ :: _ => .lt
  | _ :: _, [] => .gt
  | a :: as, b :: bs =>
    match compare a b with
    | .eq => cmpL as bs
    | o => o

/-! ## The lexicographic codec (`anondb-kv/src/lexicographic.rs`)

Each `SerializeLexicographic` impl becomes one encoder.  The natural
comparison on the Rust side becomes an explicit comparator per type:
`compare` on `Nat` for the unsigned integers, `cmpBool` (false < true) for
`bool`, `cmpL` on UTF-8 bytes for `String`/`&str` (Rust `String::cmp` is
byte-lexicographic on the UTF-8 representation), `cmpL` for `[u8; N]`
(derived array `Ord` is element-wise, and both operands have length `N`),
and `cmpOption` (`None < Some`) for `Option<T>`. -/

/-- Big-endian base-256 digits of a `w`-byte unsigned integer
(`to_be_bytes`).  The `serialize_lex` of `u8`/`u16`/`u32`/`u64`/`u128` is
`serialize_lex_uint w` with `w` = 1, 2, 4, 8, 16. -/
def serialize_lex_uint : Nat → Nat → Bytes
  | 0, _ => []
  | w + 1, n => serialize_lex_uint w (n / 256) ++ [n % 256]

/-- The codec impl for `bool`: one byte `0x00` / `0x01`. -/
def serialize_lex_bool (b : Bool) : Bytes :=
  if b then [0x01] else [0x00]

/-- The codec impl for `String` (also `&String`, `&str`, `&&str`): the
UTF-8 bytes followed by a terminating `0x00`. -/
def serialize_lex_string (s : Bytes) : Bytes :=
  s ++ [0x00]

/-- The codec impl for `[u8; N]`: the bytes verbatim. -/
def serialize_lex_array (a : Bytes) : Bytes :=
  a

/-- The codec impl for `Option<T>`:
`None → [0x00]`, `Some v → [0x01] ++ encode v`. -/
def serialize_lex_option {α : Type} (enc : α → Bytes) : Option α → Bytes
  | none => [0x00]
  | some v => 0x01 :: enc v

/-- Rust's derived `Ord` on `bool`: `false < true`. -/
def cmpBool : Bool → Bool → Ordering
  | false, false => .eq
  | false, true => .lt
  | true, false => .gt
  | true, true => .eq

/-- Rust's derived `Ord` on `Option<T>`: `None < Some _`. -/
def cmpOption {α : Type} (c : α → α → Ordering) : Option α → Option α → Ordering
  | none, none => .eq
  | none, some _ => .lt
  | some _, none => .gt
  | some a, some b => c a b

/-! ## Association-list maps

Every redb table in scope maps keys to values; we model a table as an
association list whose keys stay distinct (insert replaces in place,
otherwise appends).  Iteration order of redb (ascending keys) is
abstracted away: the claims talk about lookups, lengths and entry sets. -/

/-- Map lookup (redb `Table::get`). -/
def alGet {α β : Type} [DecidableEq α] : List (α × β) → α → Option β
  | [], _ => none
  | (k, v) :: rest, key => if k = key then some v else alGet rest key

/-- Map insert (redb `Table::insert`): replace the binding if the key is
present, otherwise add it. -/
def alInsert {α β : Type} [DecidableEq α] : List (α × β) → α → β → List (α × β)
  | [], key, value => [(key, value)]
  | (k, v) :: rest, key, value =>
    if k = key then (key, value) :: rest else (k, v) :: alInsert rest key value

/-- Map removal (redb `Table::remove`). -/
def alRemove {α β : Type} [DecidableEq α] : List (α × β) → α → List (α × β)
  | [], _ => []
  | (k, v) :: rest, key => if k = key then rest else (k, v) :: alRemove rest key

/-- A single-valued redb table keyed by byte strings. -/
abbrev Table := List (Bytes × Bytes)

/-- A redb multimap table: each key holds a set of values. -/
abbrev MultimapTable := List (Bytes × List Bytes)

/-- The named tables of one redb database. -/
abbrev TableDir := List (String × Table)

/-! ## Compound key builder (`anondb-kv/src/lexicographic/key.rs`) -/

/-- The `LexicographicKey` accumulator: a growing byte vector. -/
structure LexicographicKey where
  bytes : Bytes
deriving DecidableEq

/-- Push the `0x00` separator. -/
def LexicographicKey.append_separator (k : LexicographicKey) : LexicographicKey :=
  ⟨k.bytes ++ [0x00]⟩

/-- Append a field encoding, preceded by the `0x00` separator when the key
is not empty. -/
def LexicographicKey.append_key_slice (k : LexicographicKey) (slice : Bytes) :
    LexicographicKey :=
  if k.bytes.isEmpty then ⟨k.bytes ++ slice⟩ else ⟨k.append_separator.bytes ++ slice⟩

/-- Push the `0x01` upper-inclusive byte. -/
def LexicographicKey.append_upper_inclusive_byte (k : LexicographicKey) :
    LexicographicKey :=
  ⟨k.bytes ++ [0x01]⟩

/-- Join a list of field encodings with the separator discipline (what the
derive macro's `serialize` closure computes by folding
`append_key_slice`). -/
def sepJoin (vs : List Bytes) : Bytes :=
  (vs.foldl (fun (k : LexicographicKey) v => k.append_key_slice v) ⟨[]⟩).bytes

/-! ## Parameter model (`anondb/src/query.rs`, `anondb-kv/src/lib.rs`) -/

/-- Rust's `std::ops::Bound`. -/
inductive Bound (α : Type) where
  | Unbounded
  | Included (v : α)
  | Excluded (v : α)
deriving DecidableEq

/-- Map a function over a bound (`Bound::map`). -/
def boundMap {α β : Type} (f : α → β) : Bound α → Bound β
  | .Unbounded => .Unbounded
  | .Included v => .Included (f v)
  | .Excluded v => .Excluded (f v)

/-- The `KeyRange` pair of bounds.  The source field `end` is a reserved
word in Lean and is called `stop` here. -/
structure KeyRange (α : Type) where
  start : Bound α
  stop : Bound α
deriving DecidableEq

/-- The byte-erased predicate parameter `Param`. -/
inductive Param where
  | Eq (v : Bytes)
  | Neq (v : Bytes)
  | Range (r : KeyRange Bytes)
  | In (vs : List Bytes)
  | Nin (vs : List Bytes)
deriving DecidableEq

/-- The typed predicate parameter `ParamTyped<T>`; its `Range` carries the
two bounds of a `GeneralRange<T>`. -/
inductive ParamTyped (α : Type) where
  | Eq (v : α)
  | Neq (v : α)
  | Range (lo : Bound α) (hi : Bound α)
  | In (vs : List α)
  | Nin (vs : List α)

/-- Does `x` satisfy the start bound?  (`RangeBounds::contains`, lower
half, on byte strings ordered by `cmpL`.) -/
def lowerOk : Bound Bytes → Bytes → Bool
  | .Unbounded, _ => true
  | .Included s, k => cmpL s k ≠ .gt
  | .Excluded s, k => cmpL s k = .lt

/-- Does `x` satisfy the end bound? -/
def upperOk : Bound Bytes → Bytes → Bool
  | .Unbounded, _ => true
  | .Included e, k => cmpL k e ≠ .gt
  | .Excluded e, k => cmpL k e = .lt

/-- Bound-respecting membership for byte-string ranges
(`RangeBounds::contains` at `T = Vec<u8>`, whose `Ord` is `cmpL`). -/
def KeyRange.containsB (r : KeyRange Bytes) (k : Bytes) : Bool :=
  lowerOk r.start k && upperOk r.stop k

/-- The `GeneralRange<T>::contains` predicate (standard bound
semantics). -/
def rangeContains {α : Type} [LinearOrder α] (lo hi : Bound α) (x : α) : Bool :=
  (match lo with
   | .Unbounded => true
   | .Included s => decide (s ≤ x)
   | .Excluded s => decide (s < x)) &&
  (match hi with
   | .Unbounded => true
   | .Included e => decide (x ≤ e)
   | .Excluded e => decide (x < e))

/-- The typed predicate `ParamTyped::test`. -/
def ParamTyped.test {α : Type} [DecidableEq α] [LinearOrder α] :
    ParamTyped α → α → Bool
  | .Eq v, other => decide (v = other)
  | .Range lo hi, other => rangeContains lo hi other
  | .Neq v, other => decide (v ≠ other)
  | .In vs, other => decide (other ∈ vs)
  | .Nin vs, other => !decide (other ∈ vs)

/-- The byte-erased predicate `Param::test`. -/
def Param.test : Param → Bytes → Bool
  | .Eq v, other => decide (v = other)
  | .Range r, other => r.containsB other
  | .Neq v, other => decide (v ≠ other)
  | .In vs, other => decide (other ∈ vs)
  | .Nin vs, other => !decide (other ∈ vs)

/-- The conversion `impl Into<Param> for &ParamTyped<T>`: apply the codec
elementwise. -/
def ParamTyped.toParam {α : Type} (enc : α → Bytes) : ParamTyped α → Param
  | .Eq v => .Eq (enc v)
  | .Neq v => .Neq (enc v)
  | .Range lo hi => .Range ⟨boundMap enc lo, boundMap enc hi⟩
  | .In vs => .In (vs.map enc)
  | .Nin vs => .Nin (vs.map enc)

/-! ## Index model and query planner (`anondb/src/index.rs`) -/

/-- The `IndexOptions` struct. -/
structure IndexOptions where
  unique : Bool
  full_docs : Bool
deriving DecidableEq

/-- The `Index<T>` struct (the `serialize` extractor is carried as a
function). -/
structure Index (T : Type) where
  collection_name : String
  field_names : List String
  serialize : T → Bytes
  options : IndexOptions

/-- The index's table name:
`"{collection}_{field1}_{field2}…{_unique}"`. -/
def Index.table_name {T : Type} (i : Index T) : String :=
  i.collection_name ++ "_" ++ String.intercalate "_" i.field_names ++
    (if i.options.unique then "_unique" else "")

/-- The bound-construction loop of `Index::query` (lines 57–146 of
`index.rs`).  State: the accumulated `min_key` and the current
`min_bound` / `max_bound`.  `In` hits `unimplemented!()` in the source,
modelled as an error.  `take()` clears the accumulator, which is why the
`Range` end-bound keys below start from the emptied key. -/
def Index.query_bounds_loop (index_fields : List (String × Param)) :
    List String → LexicographicKey → Bound Bytes → Bound Bytes →
    Except String (Bound Bytes × Bound Bytes)
  | [], _min_key, min_bound, max_bound => .ok (min_bound, max_bound)
  | name :: rest, min_key, min_bound, max_bound =>
    match alGet index_fields name with
    | some (Param.Eq v) =>
        Index.query_bounds_loop index_fields rest (min_key.append_key_slice v)
          min_bound max_bound
    | some (Param.In _) => .error "panic: unimplemented"
    | some (Param.Nin _) | some (Param.Neq _) =>
        if min_key.bytes.isEmpty then .ok (min_bound, max_bound)
        else .ok (Bound.Included min_key.bytes,
                  Bound.Included min_key.append_upper_inclusive_byte.bytes)
    | some (Param.Range r) =>
        let startStep : LexicographicKey × Bound Bytes :=
          match r.start with
          | Bound.Unbounded =>
              if min_key.bytes.isEmpty then (min_key, min_bound)
              else (⟨[]⟩, Bound.Included min_key.bytes)
          | Bound.Included s => (⟨[]⟩, Bound.Included (min_key.append_key_slice s).bytes)
          | Bound.Excluded s => (⟨[]⟩, Bound.Excluded (min_key.append_key_slice s).bytes)
        let max_key := startStep.1
        let max_bound' : Bound Bytes :=
          match r.stop with
          | Bound.Unbounded => Bound.Included max_key.append_upper_inclusive_byte.bytes
          | Bound.Included e =>
              Bound.Included ((max_key.append_key_slice e).append_upper_inclusive_byte).bytes
          | Bound.Excluded e =>
              Bound.Excluded ((max_key.append_key_slice e).append_upper_inclusive_byte).bytes
        .ok (startStep.2, max_bound')
    | none =>
        if min_key.bytes.isEmpty then .ok (min_bound, max_bound)
        else .ok (Bound.Included min_key.bytes,
                  Bound.Included min_key.append_upper_inclusive_byte.bytes)

/-- The scan bounds computed by `Index::query` before the table scan. -/
def Index.query_bounds (field_names : List String)
    (index_fields : List (String × Param)) :
    Except String (Bound Bytes × Bound Bytes) :=
  Index.query_bounds_loop index_fields field_names ⟨[]⟩ Bound.Unbounded Bound.Unbounded

/-- The scoring loop of `Index::query_compat`.  A field with no query
parameter is skipped (the source's `if let Some` has no `else`).  `usize`
saturating arithmetic is modelled as exact `Nat` arithmetic; the values
involved never approach `2^64` in the claims below. -/
def Index.query_compat_loop (index_params : List (String × Param)) :
    List String → Nat → Bool → Nat × Bool
  | [], score, fullPrefix => (score, fullPrefix)
  | name :: rest, score, fullPrefix =>
    match alGet index_params name with
    | none => Index.query_compat_loop index_params rest score fullPrefix
    | some (Param.Eq _) =>
        Index.query_compat_loop index_params rest ((score + 1) * 10) fullPrefix
    | some (Param.In _) =>
        Index.query_compat_loop index_params rest ((score + 1) * 8) fullPrefix
    | some (Param.Range _) => ((score + 1) * 5, if rest.isEmpty then fullPrefix else false)
    | some (Param.Neq _) => ((score + 1) * 2, if rest.isEmpty then fullPrefix else false)
    | some (Param.Nin _) => ((score + 1) * 2, if rest.isEmpty then fullPrefix else false)

/-- `Index::query_compat`: the final score, boosted when the whole index
prefix was usable. -/
def Index.query_compat (field_names : List String)
    (index_params : List (String × Param)) : Nat :=
  let r := Index.query_compat_loop index_params field_names 0 true
  if r.2 then r.1 * 10000 else r.1

/-! ## Index selection (`anondb/src/collection.rs`, `find_many` /
`find_one`) -/

/-- Insertion into the `BTreeMap<usize, Index>` used for scoring: kept
sorted ascending by key, inserting an existing key replaces its value. -/
def btreeInsert {α : Type} : List (Nat × α) → Nat → α → List (Nat × α)
  | [], k, v => [(k, v)]
  | (k', v') :: rest, k, v =>
    if k < k' then (k, v) :: (k', v') :: rest
    else if k = k' then (k, v) :: rest
    else (k', v') :: btreeInsert rest k v

/-- `BTreeMap::last_key_value`. -/
def btreeLast {α : Type} (m : List (Nat × α)) : Option (Nat × α) :=
  m.getLast?

/-- The score map built by `find_many` / `find_one`: every SECONDARY index
is scored and inserted (the primary key index is kept in a separate field
of `Collection` and never enters this map). -/
def Collection.scores_map {T : Type} (indices : List (Index T))
    (index_params : List (String × Param)) : List (Nat × Index T) :=
  indices.foldl (fun m idx => btreeInsert m (Index.query_compat idx.field_names index_params) idx) []

/-- Index selection in `Collection::find_many`: the primary index score is
computed into an unused binding (exactly as in the source) and the best
SECONDARY index is taken from the score map; an empty map is the
`no index found` error. -/
def Collection.find_many_plan {T : Type} (primary_key_index : Index T)
    (indices : List (Index T)) (index_params : List (String × Param)) :
    Except String (Index T) :=
  let _primary_index_score := Index.query_compat primary_key_index.field_names index_params
  match btreeLast (Collection.scores_map indices index_params) with
  | some (_, best) => .ok best
  | none => .error "no index found"

/-- Index selection in `Collection::find_one`: same map, but an empty map
hits `unreachable!("no index found!")`, modelled as an error whose message
records the panic. -/
def Collection.find_one_plan {T : Type} (indices : List (Index T))
    (index_params : List (String × Param)) : Except String (Index T) :=
  match btreeLast (Collection.scores_map indices index_params) with
  | some (_, best) => .ok best
  | none => .error "panic: no index found"

/-! ## KV state and `Collection::insert` / `Index::insert` -/

/-- The committed logical state of one KV: its single-valued tables and
its multimap tables (separate redb namespaces). -/
structure KVState where
  tables : List (String × Table)
  multimaps : List (String × MultimapTable)
deriving DecidableEq

/-- `get` through a write transaction (a missing table is created empty by
redb's `open_table`; creation of an empty table is not observable in the
committed state modelled here). -/
def KVState.get (s : KVState) (table : String) (key : Bytes) : Option Bytes :=
  match alGet s.tables table with
  | some t => alGet t key
  | none => none

/-- `insert` through a write transaction. -/
def KVState.insert (s : KVState) (table : String) (key value : Bytes) : KVState :=
  { s with tables := alInsert s.tables table (alInsert ((alGet s.tables table).getD []) key value) }

/-- `insert_multimap` through a write transaction: add the value to the
key's value set. -/
def KVState.insert_multimap (s : KVState) (table : String) (key value : Bytes) : KVState :=
  let t := (alGet s.multimaps table).getD []
  let vs := (alGet t key).getD []
  let vs' := if value ∈ vs then vs else vs ++ [value]
  { s with multimaps := alInsert s.multimaps table (alInsert t key vs') }

/-- `get_multimap`: the value set stored under a key. -/
def KVState.get_multimap (s : KVState) (table : String) (key : Bytes) : List Bytes :=
  match alGet s.multimaps table with
  | some t => (alGet t key).getD []
  | none => []

/-- `Index::insert` (lines 247–262 of `index.rs`): unique indexes check
for a colliding key and store in a single-valued table, non-unique indexes
store in a multimap. -/
def Index.insert {T : Type} (idx : Index T) (s : KVState) (doc : T)
    (primary_key : Bytes) : Except String KVState :=
  let key := idx.serialize doc
  if idx.options.unique then
    if (s.get idx.table_name key).isSome then
      .error "uniqueness constraint violated"
    else .ok (s.insert idx.table_name key primary_key)
  else .ok (s.insert_multimap idx.table_name key primary_key)

/-- The `Collection<T>` data relevant to `insert`: name, primary key
extractor, document serializer (`rmp_serde::to_vec_named`, abstract), and
the secondary indexes. -/
structure Collection (T : Type) where
  name : String
  primary_serialize : T → Bytes
  doc_bytes : T → Bytes
  indices : List (Index T)

/-- `Collection::insert` (lines 210–232 of `collection.rs`).  All steps
run inside a single write transaction: an error on any step returns
without committing, so the input state is the state the caller keeps. -/
def Collection.insert {T : Type} (c : Collection T) (s : KVState) (document : T) :
    Except String KVState :=
  let data := c.doc_bytes document
  let primary_key := c.primary_serialize document
  if (s.get c.name primary_key).isSome then
    .error "duplicate primary key"
  else do
    let s1 := s.insert c.name primary_key data
    let s2 ← c.indices.foldlM (fun st idx => idx.insert st document primary_key) s1
    .ok s2

/-- A failed `Collection::insert` never commits its write transaction, so
the caller keeps the input state.  This lifts the `Except`-valued call to
the state observed afterwards. -/
def Collection.insert_state {T : Type} (c : Collection T) (s : KVState) (document : T) :
    KVState :=
  match Collection.insert c s document with
  | .ok s' => s'
  | .error _ => s

/-! ## Redb read operations (`anondb-kv/src/kv_redb/tx.rs`, `mod.rs`) -/

/-- Entries of a table whose keys fall inside the bounds (iteration order
abstracted away). -/
def tableRange (t : Table) (r : KeyRange Bytes) : List (Bytes × Bytes) :=
  t.filter (fun e => lowerOk r.start e.1 && upperOk r.stop e.1)

/-- `RedbReadTransaction::get`: `read_table` maps a missing table to
`None`, so the lookup yields `None`. -/
def RedbReadTransaction.get (s : KVState) (table : String) (key : Bytes) : Option Bytes :=
  match alGet s.tables table with
  | some t => alGet t key
  | none => none

/-- `RedbReadTransaction::count`: a missing table counts 0. -/
def RedbReadTransaction.count (s : KVState) (table : String) : Nat :=
  match alGet s.tables table with
  | some t => t.length
  | none => 0

/-- `RedbReadTransaction::range`: a missing table yields
`MaybeEmptyIter::default()`, the empty iterator. -/
def RedbReadTransaction.range (s : KVState) (table : String) (r : KeyRange Bytes) :
    Except String (List (Bytes × Bytes)) :=
  match alGet s.tables table with
  | some t => .ok (tableRange t r)
  | none => .ok []

/-- `RedbKV::get` delegates to a fresh read transaction. -/
def RedbKV.get (s : KVState) (table : String) (key : Bytes) : Option Bytes :=
  RedbReadTransaction.get s table key

/-- `RedbKV::count` delegates to a fresh read transaction. -/
def RedbKV.count (s : KVState) (table : String) : Nat :=
  RedbReadTransaction.count s table

/-- `RedbKV::range` (lines 226–245 of `kv_redb/mod.rs`): it opens the
table with `tx.read.open_table(..)?`, so a missing table propagates redb's
`TableDoesNotExist` error instead of yielding an empty iterator. -/
def RedbKV.range (s : KVState) (table : String) (r : KeyRange Bytes) :
    Except String (List (Bytes × Bytes)) :=
  match alGet s.tables table with
  | some t => .ok (tableRange t r)
  | none => .error "TableDoesNotExist"

/-- `RedbKV::scan` iterates `self.range(table, ..)`, so it inherits the
missing-table error of `RedbKV::range`. -/
def RedbKV.scan (s : KVState) (table : String) : Except String (List (Bytes × Bytes)) :=
  RedbKV.range s table ⟨Bound.Unbounded, Bound.Unbounded⟩

/-! ## The journal (`src/journal.rs`, `src/active_transaction.rs`,
`src/table.rs`, `src/lib.rs`)

The journal table (`u64 → [u8;32]`) and the transactions table
(`[u8;32] → bytes`) are association-list maps.  The transactions table
stores the `JournalTransaction` value itself: its MessagePack serialization
is a bijection which the claims never inspect.  BLAKE3 composed with the
serializer becomes the abstract parameter `hashTx`. -/

/-- The `TransactionOperation` enum of `src/lib.rs`. -/
inductive TransactionOperation where
  | RenameTable (a b : String)
  | RenameMultimapTable (a b : String)
  | DeleteTable (name : String)
  | DeleteMultimapTable (name : String)
  | OpenTable (name : String)
  | OpenMultimapTable (name : String)
  | Insert (table_name : String) (key_bytes value_bytes : Bytes)
  | Remove (table_name : String) (key_bytes : Bytes)
  | Commit
deriving DecidableEq

/-- The `JournalTransaction` struct. -/
structure JournalTransaction where
  last_tx_hash : Bytes
  operations : List TransactionOperation
deriving DecidableEq

/-- A 32-byte hash value. -/
abbrev Hash := Bytes

/-- The all-zero 32-byte seed (`<[u8; 32]>::default()`). -/
def zero_seed : Hash := List.replicate 32 0

/-- The logical state of a journal database: the user tables plus the two
reserved system tables. -/
structure JournalDB where
  tables : TableDir
  journal_table : List (Nat × Hash)
  tx_table : List (Hash × JournalTransaction)
deriving DecidableEq

/-- A freshly created empty journal database (`Journal::in_memory(None)`). -/
def Journal.emptyDB : JournalDB := ⟨[], [], []⟩

/-- The `JournalState` struct. -/
structure JournalState where
  next_tx_index : Nat
  last_tx_hash : Hash
deriving DecidableEq

/-- `Journal::get_state`: `next_tx_index` is the journal table length;
`last_tx_hash` is the entry at `next_tx_index - 1`, or the zero seed when
the table is empty or missing. -/
def Journal.get_state (db : JournalDB) : Except String JournalState :=
  let n := db.journal_table.length
  if n > 0 then
    match alGet db.journal_table (n - 1) with
    | some h => .ok ⟨n, h⟩
    | none => .error "unable to find hash for latest tx index"
  else .ok ⟨n, zero_seed⟩

/-- Insert into a user table of a journal replay (`JournaledTable::insert_bytes`,
via the redb handle obtained from `open_table`). -/
def dirInsert (dir : TableDir) (t : String) (k v : Bytes) : TableDir :=
  alInsert dir t (alInsert ((alGet dir t).getD []) k v)

/-- Remove a key from a user table (`JournaledTable::remove_bytes`). -/
def dirRemoveKey (dir : TableDir) (t : String) (k : Bytes) : TableDir :=
  alInsert dir t (alRemove ((alGet dir t).getD []) k)

/-- Redb `WriteTransaction::open_table`: creates the table when missing. -/
def Journal.open_table_dir (dir : TableDir) (name : String) : TableDir :=
  match alGet dir name with
  | some _ => dir
  | none => alInsert dir name []

/-- The running state of the `append_tx` replay loop: the table directory,
the keys of `tables_by_name`, and the operations enqueued into the
enclosing `ActiveTransaction`'s channel by the replayed calls. -/
structure ReplayCtx where
  dir : TableDir
  opened : List String
  enq : List TransactionOperation
deriving DecidableEq

/-- One step of the `append_tx` replay loop (lines 150–204 of
`journal.rs`).  `OpenMultimapTable` and `DeleteMultimapTable` reach
`unimplemented!()` panics in `ActiveTransaction` and are modelled as
errors; `RenameMultimapTable` fails because no multimap table can ever
exist.  A mid-list `Commit` is rejected by the loop itself. -/
def Journal.run_operation (ctx : ReplayCtx) :
    TransactionOperation → Except String ReplayCtx
  | .OpenTable name =>
      if name ∈ ctx.opened then .ok ctx
      else .ok { dir := Journal.open_table_dir ctx.dir name,
                 opened := name :: ctx.opened,
                 enq := ctx.enq ++ [.OpenTable name] }
  | .OpenMultimapTable _ => .error "panic: open_multimap_table is unimplemented"
  | .Insert t k v =>
      if t ∈ ctx.opened then
        .ok { ctx with dir := dirInsert ctx.dir t k v, enq := ctx.enq ++ [.Insert t k v] }
      else .error "table is not open"
  | .Remove t k =>
      if t ∈ ctx.opened then
        .ok { ctx with dir := dirRemoveKey ctx.dir t k, enq := ctx.enq ++ [.Remove t k] }
      else .error "table is not open"
  | .RenameTable a b =>
      match alGet ctx.dir a with
      | none => .error "cannot rename: table does not exist"
      | some t => .ok { dir := alInsert (alRemove ctx.dir a) b t,
                        opened := ctx.opened.erase a,
                        enq := ctx.enq ++ [.RenameTable a b] }
  | .RenameMultimapTable _ _ => .error "cannot rename: multimap table does not exist"
  | .DeleteTable name =>
      .ok { dir := alRemove ctx.dir name,
            opened := ctx.opened.erase name,
            enq := ctx.enq ++ [.DeleteTable name] }
  | .DeleteMultimapTable _ => .error "panic: delete_multimap_table is unimplemented"
  | .Commit => .error "commit operation must be final operation"

/-- Run a list of operations through the replay loop. -/
def Journal.run_operations (ops : List TransactionOperation) (dir : TableDir) :
    Except String ReplayCtx :=
  ops.foldlM Journal.run_operation ⟨dir, [], []⟩

/-- The `JournalTransaction` recorded by `ActiveTransaction::commit`: the
drained queue with `Commit` appended, chained to the snapshotted state. -/
def Journal.mk_tx (st : JournalState) (queue : List TransactionOperation) :
    JournalTransaction :=
  ⟨st.last_tx_hash, queue ++ [.Commit]⟩

/-- The bookkeeping writes of `ActiveTransaction::commit`: insert
`(hash, tx)` into the transactions table and `(next_tx_index, hash)` into
the journal table, atomically with the user tables. -/
def Journal.record_commit (hashTx : JournalTransaction → Hash) (db : JournalDB)
    (st : JournalState) (queue : List TransactionOperation) (dir : TableDir) :
    JournalDB :=
  let journal_tx := Journal.mk_tx st queue
  let tx_hash := hashTx journal_tx
  { tables := dir,
    tx_table := alInsert db.tx_table tx_hash journal_tx,
    journal_table := alInsert db.journal_table st.next_tx_index tx_hash }

/-- `ActiveTransaction::commit` (lines 46–77 of `active_transaction.rs`):
snapshot the state, build the transaction from the drained queue, write
the bookkeeping entries, commit.  Returns the new database and the
recorded transaction. -/
def ActiveTransaction.commit (hashTx : JournalTransaction → Hash) (db : JournalDB)
    (queue : List TransactionOperation) (dir : TableDir) :
    Except String (JournalDB × JournalTransaction) := do
  let st ← Journal.get_state db
  .ok (Journal.record_commit hashTx db st queue dir, Journal.mk_tx st queue)

/-- A user transaction: the caller performed the calls that enqueue `prog`
through `ActiveTransaction::open_table` / `JournaledTable::insert_bytes` /
`remove_bytes` / `rename_table` / `delete_table`, then committed.  The
drained queue is `prog` itself (every successful call enqueues its
operation); the table effect of those calls coincides with the effect of
the replay loop on `prog`, since the loop's deduplication of `OpenTable`
only affects the enqueued list, never the tables. -/
def Journal.commit_ops (hashTx : JournalTransaction → Hash) (db : JournalDB)
    (prog : List TransactionOperation) :
    Except String (JournalDB × JournalTransaction) := do
  let ctx ← Journal.run_operations prog db.tables
  ActiveTransaction.commit hashTx db prog ctx.dir

/-- `Journal::append_tx` (lines 128–209 of `journal.rs`): reject a
divergent `last_tx_hash`, an empty operation list, or a missing final
`Commit`; replay the operations; commit through
`ActiveTransaction::commit`, which re-records the enqueued operations. -/
def Journal.append_tx (hashTx : JournalTransaction → Hash) (db : JournalDB)
    (tx : JournalTransaction) : Except String JournalDB := do
  let st ← Journal.get_state db
  if st.last_tx_hash ≠ tx.last_tx_hash then
    .error "cannot apply transaction to divergent last_tx_hash"
  else if tx.operations = [] then
    .error "cannot apply empty transaction"
  else if tx.operations.getLast? ≠ some .Commit then
    .error "cannot apply transaction without final operation being commit"
  else do
    let ctx ← Journal.run_operations tx.operations.dropLast db.tables
    let r ← ActiveTransaction.commit hashTx db ctx.enq ctx.dir
    .ok r.1

/-- A failed `append_tx` drops its write transaction: the caller's
database is unchanged.  This lifts the `Except`-valued call to the state
the caller observes afterwards. -/
def Journal.append_tx_state (hashTx : JournalTransaction → Hash) (db : JournalDB)
    (tx : JournalTransaction) : JournalDB :=
  match Journal.append_tx hashTx db tx with
  | .ok db' => db'
  | .error _ => db

/-- Commit a sequence of user transactions from a database, collecting the
recorded `JournalTransaction`s in order. -/
def Journal.source_run (hashTx : JournalTransaction → Hash) :
    List (List TransactionOperation) → JournalDB →
    Except String (JournalDB × List JournalTransaction)
  | [], db => .ok (db, [])
  | p :: ps, db => do
      let r ← Journal.commit_ops hashTx db p
      let rest ← Journal.source_run hashTx ps r.1
      .ok (rest.1, r.2 :: rest.2)

/-- Apply recorded transactions in order via `append_tx`. -/
def Journal.replay_run (hashTx : JournalTransaction → Hash)
    (txs : List JournalTransaction) (db : JournalDB) : Except String JournalDB :=
  txs.foldlM (Journal.append_tx hashTx) db

/-- Journal states reachable from the empty database, together with the
list of transactions recorded along the way.  Both
`ActiveTransaction::commit` (user transactions, arbitrary queue and table
effect) and `Journal::append_tx` factor through
`ActiveTransaction.commit`, so every state they reach is reached by this
relation. -/
inductive Journal.Reach (hashTx : JournalTransaction → Hash) :
    JournalDB → List JournalTransaction → Prop where
  | empty : Journal.Reach hashTx Journal.emptyDB []
  | step {db txs queue dir db' tx} :
      Journal.Reach hashTx db txs →
      ActiveTransaction.commit hashTx db queue dir = .ok (db', tx) →
      Journal.Reach hashTx db' (txs ++ [tx])

/-- The hash closing the chain after `txs`: the hash of the last recorded
transaction, or the zero seed. -/
def Journal.chainEnd (hashTx : JournalTransaction → Hash)
    (txs : List JournalTransaction) : Hash :=
  match txs.getLast? with
  | some t => hashTx t
  | none => zero_seed

/-- Contiguity of the hash chain: each transaction's `last_tx_hash` is the
hash of its predecessor (the seed for the first). -/
def Journal.chainOk (hashTx : JournalTransaction → Hash) :
    Hash → List JournalTransaction → Prop
  | _, [] => True
  | prev, t :: ts => t.last_tx_hash = prev ∧ Journal.chainOk hashTx (hashTx t) ts

/-- The journal table contents after recording `txs`: hashes keyed by
consecutive indices starting at `k`. -/
def Journal.enumHFrom (hashTx : JournalTransaction → Hash) (k : Nat) :
    List JournalTransaction → List (Nat × Hash)
  | [] => []
  | t :: ts => (k, hashTx t) :: Journal.enumHFrom hashTx (k + 1) ts

/-! ### Concrete instances used by counterexamples and witnesses -/

/-- A concrete stand-in for BLAKE3 of the serialized transaction, used to
instantiate `hashTx` in counterexamples and witnesses.  (Only its values
on the handful of concrete transactions below matter.) -/
def hashTx0 (t : JournalTransaction) : Hash :=
  [t.operations.length]

/-- A user transaction that opens the same table twice: legal through the
API, but its operation list is NOT reproduced verbatim by the replay loop
(which deduplicates `OpenTable`). -/
def cexProg1 : List TransactionOperation :=
  [.OpenTable "a", .OpenTable "a", .Insert "a" [1] [2]]

/-- A second, well-formed user transaction. -/
def cexProg2 : List TransactionOperation :=
  [.OpenTable "a", .Insert "a" [3] [4]]

/-- Scenario 5 of the specification, first transaction: insert (a, 1). -/
def wProg1 : List TransactionOperation :=
  [.OpenTable "t", .Insert "t" [97] [1]]

/-- Scenario 5 of the specification, second transaction: insert (b, 2),
remove (a). -/
def wProg2 : List TransactionOperation :=
  [.OpenTable "t", .Insert "t" [98] [2], .Remove "t" [97]]

/-- The source run of the two counterexample transactions. -/
def cexRun : Except String (JournalDB × List JournalTransaction) :=
  Journal.source_run hashTx0 [cexProg1, cexProg2] Journal.emptyDB

/-- The database produced by the counterexample source run. -/
def cexDB : JournalDB :=
  match cexRun with
  | .ok (d, _) => d
  | .error _ => Journal.emptyDB

/-- The transactions recorded by the counterexample source run. -/
def cexTxs : List JournalTransaction :=
  match cexRun with
  | .ok (_, txs) => txs
  | .error _ => []

/-- The source run of the two scenario-5 transactions. -/
def wRun : Except String (JournalDB × List JournalTransaction) :=
  Journal.source_run hashTx0 [wProg1, wProg2] Journal.emptyDB

/-- The database produced by the scenario-5 source run. -/
def wDB : JournalDB :=
  match wRun with
  | .ok (d, _) => d
  | .error _ => Journal.emptyDB

/-- The transactions recorded by the scenario-5 source run. -/
def wTxs : List JournalTransaction :=
  match wRun with
  | .ok (_, txs) => txs
  | .error _ => []

/-- A one-commit journal database used as a reachability witness. -/
def witDB1 : JournalDB :=
  Journal.record_commit hashTx0 Journal.emptyDB ⟨0, zero_seed⟩
    [.OpenTable "t"] [("t", [])]

/-- The transaction recorded in `witDB1`. -/
def witTx1 : JournalTransaction :=
  Journal.mk_tx ⟨0, zero_seed⟩ [.OpenTable "t"]

/-- The secondary unique index of the `Collection::insert` counterexample:
one field over the second component. -/
def cexIndex : Index (Nat × Nat) :=
  ⟨"docs", ["snd"], fun d => serialize_lex_uint 1 d.2, ⟨true, false⟩⟩

/-- The collection of the `Collection::insert` counterexample: primary key
over the first component, one unique secondary index over the second. -/
def cexCollection : Collection (Nat × Nat) :=
  ⟨"docs", fun d => serialize_lex_uint 1 d.1,
   fun d => serialize_lex_uint 1 d.1 ++ serialize_lex_uint 1 d.2, [cexIndex]⟩

/-- The KV state after inserting the document (0, 5) into the empty
state. -/
def cexState0 : KVState :=
  match Collection.insert cexCollection ⟨[], []⟩ (0, 5) with
  | .ok s => s
  | .error _ => ⟨[], []⟩

end AnonDB

namespace AnonDB

/-! ## Basic facts about `cmpL` -/

theorem cmpL_nil_left (b : Bytes) : cmpL [] b = .eq ∨ cmpL [] b = .lt := by
  cases b <;> simp [cmpL]

theorem cmpL_self (a : Bytes) : cmpL a a = .eq := by
  induction a with
  | nil => rfl
  | cons x xs ih => simp [cmpL, Nat.compare_eq_eq.mpr rfl, ih]

theorem cmpL_eq_iff {a b : Bytes} : cmpL a b = .eq ↔ a = b := by
  constructor
  · intro h
    induction a generalizing b with
    | nil => cases b with
      | nil => rfl
      | cons y ys => simp [cmpL] at h
    | cons x xs ih =>
      cases b with
      | nil => simp [cmpL] at h
      | cons y ys =>
        simp only [cmpL] at h
        rcases hc : compare x y with _ | _ | _ <;> rw [hc] at h
        · simp at h
        · have hxy := Nat.compare_eq_eq.mp hc
          exact hxy ▸ congrArg (x :: ·) (ih h)
        · simp at h
  · intro h; subst h; exact cmpL_self a

theorem cmpL_gt_iff_lt {a b : Bytes} : cmpL a b = .gt ↔ cmpL b a = .lt := by
  induction a generalizing b with
  | nil => cases b <;> simp [cmpL]
  | cons x xs ih =>
    cases b with
    | nil => simp [cmpL]
    | cons y ys =>
      simp only [cmpL]
      rcases hc : compare x y with _ | _ | _
      · have := Nat.compare_eq_lt.mp hc
        rw [Nat.compare_eq_gt.mpr this]
        simp
      · have hxy := Nat.compare_eq_eq.mp hc
        rw [Nat.compare_eq_eq.mpr hxy.symm]
        exact ih
      · have := Nat.compare_eq_gt.mp hc
        rw [Nat.compare_eq_lt.mpr this]
        simp

/-- Prefix cancellation: comparison below a common prefix. -/
theorem cmpL_append_cancel (p a b : Bytes) : cmpL (p ++ a) (p ++ b) = cmpL a b := by
  induction p with
  | nil => rfl
  | cons x xs ih => simp [cmpL, Nat.compare_eq_eq.mpr rfl, ih]

/-- A strict extension sorts strictly after its prefix. -/
theorem cmpL_prefix_lt (p r : Bytes) (hr : r ≠ []) : cmpL p (p ++ r) = .lt := by
  induction p with
  | nil => cases r with
    | nil => exact absurd rfl hr
    | cons y ys => simp [cmpL]
  | cons x xs ih => simp [cmpL, Nat.compare_eq_eq.mpr rfl, ih]

/-- Appending equal-length prefixes: comparison splits into prefix then
suffix comparison. -/
theorem cmpL_append_of_length_eq {a b : Bytes} (h : a.length = b.length)
    (as bs : Bytes) : cmpL (a ++ as) (b ++ bs) = (cmpL a b).then (cmpL as bs) := by
  induction a generalizing b with
  | nil =>
    cases b with
    | nil => simp [cmpL, Ordering.then]
    | cons y ys => simp at h
  | cons x xs ih =>
    cases b with
    | nil => simp at h
    | cons y ys =>
      simp only [List.length_cons, Nat.succ.injEq] at h
      simp only [List.cons_append, cmpL]
      rcases hc : compare x y with _ | _ | _
      · simp [Ordering.then]
      · exact ih h
      · simp [Ordering.then]

/-- Appending the same terminator byte `0x00` (the smallest byte) preserves
byte-lexicographic order.  This is the reason the string codec's trailing
`0x00` is order-correct. -/
theorem cmpL_append_zero (a b : Bytes) : cmpL (a ++ [0]) (b ++ [0]) = cmpL a b := by
  induction a generalizing b with
  | nil =>
    cases b with
    | nil => simp [cmpL, Nat.compare_eq_eq.mpr rfl]
    | cons y ys =>
      simp only [List.nil_append, List.cons_append, cmpL]
      rcases hy : compare 0 y with _ | _ | _
      · simp
      · have h0 := Nat.compare_eq_eq.mp hy
        cases ys <;> simp [cmpL, ← h0]
      · exact absurd (Nat.compare_eq_gt.mp hy) (Nat.not_lt_zero y)
  | cons x xs ih =>
    cases b with
    | nil =>
      simp only [List.cons_append, List.nil_append, cmpL]
      rcases hx : compare x 0 with _ | _ | _
      · exact absurd (Nat.compare_eq_lt.mp hx) (Nat.not_lt_zero x)
      · have h0 := Nat.compare_eq_eq.mp hx
        cases xs <;> simp [cmpL, h0]
      · simp
    | cons y ys =>
      simp only [List.cons_append, cmpL]
      rcases hc : compare x y with _ | _ | _ <;> simp [ih]

theorem serialize_lex_uint_length (w n : Nat) : (serialize_lex_uint w n).length = w := by
  induction w generalizing n with
  | zero => rfl
  | succ w ih => simp [serialize_lex_uint, ih]

/-- Big-endian fixed-width encodings compare like the numbers they encode. -/
theorem cmpL_serialize_lex_uint {w m n : Nat} (hm : m < 256 ^ w) (hn : n < 256 ^ w) :
    cmpL (serialize_lex_uint w m) (serialize_lex_uint w n) = compare m n := by
  induction w generalizing m n with
  | zero =>
    simp only [pow_zero, Nat.lt_one_iff] at hm hn
    subst hm; subst hn
    rfl
  | succ w ih =>
    have hm' : m / 256 < 256 ^ w := by
      rw [Nat.div_lt_iff_lt_mul (by norm_num)]
      calc m < 256 ^ (w + 1) := hm
        _ = 256 ^ w * 256 := by ring
    have hn' : n / 256 < 256 ^ w := by
      rw [Nat.div_lt_iff_lt_mul (by norm_num)]
      calc n < 256 ^ (w + 1) := hn
        _ = 256 ^ w * 256 := by ring
    have hlen : (serialize_lex_uint w (m / 256)).length =
        (serialize_lex_uint w (n / 256)).length := by
      simp [serialize_lex_uint_length]
    rw [serialize_lex_uint, serialize_lex_uint,
      cmpL_append_of_length_eq hlen, ih hm' hn']
    have hsingle : cmpL [m % 256] [n % 256] = compare (m % 256) (n % 256) := by
      simp only [cmpL]
      rcases hc : compare (m % 256) (n % 256) <;> simp
    rw [hsingle]
    have hmdecomp := Nat.div_add_mod m 256
    have hndecomp := Nat.div_add_mod n 256
    have hmlt := Nat.mod_lt m (y := 256) (by norm_num)
    have hnlt := Nat.mod_lt n (y := 256) (by norm_num)
    rcases hdiv : compare (m / 256) (n / 256) with _ | _ | _
    · have hlt : m / 256 < n / 256 := Nat.compare_eq_lt.mp hdiv
      have : m < n := by omega
      simp [Ordering.then, Nat.compare_eq_lt.mpr this]
    · have heq : m / 256 = n / 256 := Nat.compare_eq_eq.mp hdiv
      have : compare (m % 256) (n % 256) = compare m n := by
        rcases hmod : compare (m % 256) (n % 256) with _ | _ | _
        · have := Nat.compare_eq_lt.mp hmod
          exact (Nat.compare_eq_lt.mpr (by omega)).symm
        · have := Nat.compare_eq_eq.mp hmod
          exact (Nat.compare_eq_eq.mpr (by omega)).symm
        · have := Nat.compare_eq_gt.mp hmod
          exact (Nat.compare_eq_gt.mpr (by omega)).symm
      simp [Ordering.then, this]
    · have hgt : n / 256 < m / 256 := Nat.compare_eq_gt.mp hdiv
      have : n < m := by omega
      simp [Ordering.then, Nat.compare_eq_gt.mpr this]

end AnonDB

namespace AnonDB

/-! ## C1: the codec is order-preserving -/

/-- C1: For every type implementing the lexicographic codec — the unsigned
integers `u8`/`u16`/`u32`/`u64`/`u128` (widths 1, 2, 4, 8, 16 bytes),
`bool`, `String` and `&str` (UTF-8 bytes, compared byte-wise as Rust
does), `[u8; N]`, and `Option<T>` for any codec `T` whose encoding is
order-preserving — comparing two encodings byte-lexicographically equals
the natural comparison of the two values:
`serialize_lex(x).cmp(serialize_lex(y)) == x.cmp(y)`. -/
theorem serialize_lex_order_preserving :
    (∀ w x y : Nat, x < 256 ^ w → y < 256 ^ w →
      cmpL (serialize_lex_uint w x) (serialize_lex_uint w y) = compare x y)
  ∧ (∀ x y : Bool, cmpL (serialize_lex_bool x) (serialize_lex_bool y) = cmpBool x y)
  ∧ (∀ s t : Bytes, cmpL (serialize_lex_string s) (serialize_lex_string t) = cmpL s t)
  ∧ (∀ (n : Nat) (a b : Bytes), a.length = n → b.length = n →
      cmpL (serialize_lex_array a) (serialize_lex_array b) = cmpL a b)
  ∧ (∀ (α : Type) (cmpT : α → α → Ordering) (enc : α → Bytes),
      (∀ x y, cmpL (enc x) (enc y) = cmpT x y) →
      ∀ o p : Option α,
        cmpL (serialize_lex_option enc o) (serialize_lex_option enc p) =
          cmpOption cmpT o p) := by
  refine ⟨fun w x y hx hy => cmpL_serialize_lex_uint hx hy,
          fun x y => by cases x <;> cases y <;> decide,
          fun s t => cmpL_append_zero s t,
          fun n a b _ _ => rfl,
          fun α cmpT enc henc o p => ?_⟩
  have h00 : compare (0 : Nat) 0 = .eq := by decide
  have h01 : compare (0 : Nat) 1 = .lt := by decide
  have h10 : compare (1 : Nat) 0 = .gt := by decide
  have h11 : compare (1 : Nat) 1 = .eq := by decide
  cases o <;> cases p <;>
    simp [serialize_lex_option, cmpL, cmpOption, h00, h01, h10, h11, henc]

/-- Witness for C1 at concrete inputs. -/
theorem serialize_lex_order_preserving_witness :
    cmpL (serialize_lex_uint 4 100) (serialize_lex_uint 4 101) = compare 100 101 ∧
    cmpL (serialize_lex_option serialize_lex_bool (some false))
        (serialize_lex_option serialize_lex_bool none) =
      cmpOption cmpBool (some false) none ∧
    cmpL (serialize_lex_array [3, 7]) (serialize_lex_array [3, 9]) = cmpL [3, 7] [3, 9] :=
  ⟨serialize_lex_order_preserving.1 4 100 101 (by norm_num) (by norm_num),
   serialize_lex_order_preserving.2.2.2.2 Bool cmpBool serialize_lex_bool
     (fun x y => by cases x <;> cases y <;> decide) (some false) none,
   serialize_lex_order_preserving.2.2.2.1 2 [3, 7] [3, 9] rfl rfl⟩

/-! ## C2: the upper-inclusive byte -/

/-- Characterization of the keys inside the inclusive interval
`[P, P ++ [0x01]]`: exactly `P` itself, the keys continuing `P` through
the `0x00` separator, and the boundary key `P ++ [0x01]`. -/
theorem closed_interval_upper_inclusive (P K : Bytes) :
    (cmpL P K ≠ .gt ∧ cmpL K (P ++ [1]) ≠ .gt) ↔
      (K = P ∨ (K.take (P.length + 1) = P ++ [0] ∧ P.length < K.length) ∨ K = P ++ [1]) := by
  induction P generalizing K with
  | nil =>
    cases K with
    | nil => simp [cmpL]
    | cons k ks =>
      simp only [List.nil_append, List.length_nil, Nat.zero_add, cmpL, List.length_cons]
      rcases Nat.lt_trichotomy k 1 with hk | hk | hk
      · have hk0 : k = 0 := by omega
        subst hk0
        have h01 : compare (0 : Nat) 1 = .lt := by decide
        simp [h01, List.take_succ_cons]
      · subst hk
        have h11 : compare (1 : Nat) 1 = .eq := by decide
        cases ks with
        | nil => simp [h11, cmpL]
        | cons c cs => simp [h11, cmpL, List.take_succ_cons]
      · have hg : compare k 1 = .gt := Nat.compare_eq_gt.mpr hk
        have hne0 : k ≠ 0 := by omega
        have hne1 : k ≠ 1 := by omega
        simp [hg, List.take_succ_cons, hne0, hne1]
  | cons p ps ih =>
    cases K with
    | nil => simp [cmpL]
    | cons k ks =>
      simp only [List.cons_append, cmpL, List.length_cons]
      rcases hc : compare p k with _ | _ | _
      · have hlt := Nat.compare_eq_lt.mp hc
        have hkp : compare k p = .gt := Nat.compare_eq_gt.mpr hlt
        have hne : k ≠ p := by omega
        have hne' : p ≠ k := by omega
        simp [hkp, List.take_succ_cons, hne, hne']
      · have heq := Nat.compare_eq_eq.mp hc
        subst heq
        have hpp : compare p p = .eq := Nat.compare_eq_eq.mpr rfl
        simp only [hpp, List.take_succ_cons, List.cons.injEq, true_and, List.append_eq]
        rw [ih ks]
        simp [Nat.succ_lt_succ_iff]
      · have hgt := Nat.compare_eq_gt.mp hc
        have hkp : compare k p = .lt := Nat.compare_eq_lt.mpr hgt
        have hne : k ≠ p := by omega
        have hne' : p ≠ k := by omega
        simp [hkp, List.take_succ_cons, hne, hne']

/-- C2 counterexample: the claim's summary sentence ("the inclusive upper
bound `P ++ 0x01` encloses exactly the keys equal to `P` or continuing `P`
through the `0x00` separator") fails at `P = [0x05]`: the boundary key
`K = [0x05, 0x01]` lies inside the inclusive interval yet is neither `P`
itself nor a `0x00`-separated continuation of `P`. -/
theorem upper_inclusive_exactly_cex :
    (cmpL [5] [5, 1] ≠ .gt ∧ cmpL [5, 1] ([5] ++ [1]) ≠ .gt)
    ∧ [5, 1] ≠ [5]
    ∧ (([5, 1] : Bytes).take ([5].length + 1) = [5] ++ [0] → False)
    ∧ (LexicographicKey.append_upper_inclusive_byte ⟨[5]⟩).bytes = [5, 1] := by
  refine ⟨⟨by decide, by decide⟩, by decide, by decide, rfl⟩

/-- C2 (amended): for every prefix `P` built by `LexicographicKey`,
`P` sorts strictly before `P ++ [0x01]`; every separator extension
`P ++ [0x00] ++ S` sorts strictly before `P ++ [0x01]`; `P ++ [0x01]`
sorts strictly before every key extending `P` with a byte ≥ 2 at position
`|P|` and before every strict extension of `P ++ [0x01]`; hence the
inclusive upper bound `P ++ [0x01]` produced by
`append_upper_inclusive_byte` encloses exactly the keys equal to `P`,
the keys continuing `P` through the `0x00` separator, and the boundary
key `P ++ [0x01]` itself. -/
theorem upper_inclusive_byte_bounds :
    (∀ P : Bytes, cmpL P (LexicographicKey.append_upper_inclusive_byte ⟨P⟩).bytes = .lt)
  ∧ (∀ P S : Bytes, cmpL (P ++ 0 :: S) (P ++ [1]) = .lt)
  ∧ (∀ (P S : Bytes) (b : Nat), 2 ≤ b → cmpL (P ++ [1]) (P ++ b :: S) = .lt)
  ∧ (∀ P S : Bytes, S ≠ [] → cmpL (P ++ [1]) (P ++ [1] ++ S) = .lt)
  ∧ (∀ P K : Bytes,
      (cmpL P K ≠ .gt ∧ cmpL K (P ++ [1]) ≠ .gt) ↔
        (K = P ∨ (K.take (P.length + 1) = P ++ [0] ∧ P.length < K.length) ∨ K = P ++ [1])) := by
  refine ⟨fun P => cmpL_prefix_lt P [1] (by simp),
          fun P S => ?_, fun P S b hb => ?_, fun P S hS => ?_,
          fun P K => closed_interval_upper_inclusive P K⟩
  · rw [cmpL_append_cancel]
    simp [cmpL, show compare (0 : Nat) 1 = .lt from by decide]
  · rw [cmpL_append_cancel]
    simp [cmpL, Nat.compare_eq_lt.mpr (show 1 < b by omega)]
  · exact cmpL_prefix_lt (P ++ [1]) S hS

/-- Witness for C2 at concrete inputs. -/
theorem upper_inclusive_byte_bounds_witness :
    cmpL ([7, 7] ++ [1]) ([7, 7] ++ 2 :: [9]) = .lt ∧
    cmpL ([7, 7] ++ [1]) ([7, 7] ++ [1] ++ [0]) = .lt ∧
    (cmpL [7] [7, 0, 3] ≠ .gt ∧ cmpL [7, 0, 3] ([7] ++ [1]) ≠ .gt) :=
  ⟨upper_inclusive_byte_bounds.2.2.1 [7, 7] [9] 2 (by norm_num),
   upper_inclusive_byte_bounds.2.2.2.1 [7, 7] [0] (by simp),
   (upper_inclusive_byte_bounds.2.2.2.2 [7] [7, 0, 3]).mpr
     (Or.inr (Or.inl (by decide)))⟩

end AnonDB

namespace AnonDB

/-! ## C3: scan bounds built by `Index::query` for Eq parameters -/

/-- On a run of fields all carrying `Eq`, the planner loop only extends
the accumulated key and touches neither bound. -/
theorem query_bounds_loop_all_eq (params : List (String × Param))
    (val : String → Bytes) :
    ∀ (fields : List String),
      (∀ f ∈ fields, alGet params f = some (Param.Eq (val f))) →
      ∀ (fs : List String) (k : LexicographicKey) (mb xb : Bound Bytes),
        Index.query_bounds_loop params (fields ++ fs) k mb xb =
          Index.query_bounds_loop params fs
            (fields.foldl (fun k f => k.append_key_slice (val f)) k) mb xb := by
  intro fields
  induction fields with
  | nil => intro _ fs k mb xb; rfl
  | cons f fields ih =>
    intro h fs k mb xb
    have hf := h f (by simp)
    simp only [List.cons_append, Index.query_bounds_loop, hf, List.foldl_cons]
    exact ih (fun g hg => h g (by simp [hg])) fs _ mb xb

/-- C3 counterexample: a query that Eq-constrains every field of the
index.  On the single-field index `["a"]` with `{a ↦ Eq [7]}` the claim
asserts scan bounds `(Included [7], Included ([7] ++ [0x01]))`, but
`Index::query` never assigns a bound in its `Eq` arm, so the loop
completes with the initial `(Unbounded, Unbounded)` — an unbounded
full-table range. -/
theorem index_query_eq_bounds_cex :
    Index.query_bounds ["a"] [("a", Param.Eq [7])] =
      .ok (Bound.Unbounded, Bound.Unbounded)
    ∧ ((Bound.Unbounded : Bound Bytes), (Bound.Unbounded : Bound Bytes)) ≠
        (Bound.Included [7], Bound.Included ([7] ++ [1])) :=
  ⟨rfl, by decide⟩

/-- C3 (amended): In `Index::query`, an `Eq(v)` parameter only appends `v`
to the accumulated `min_key` and continues to the next field; no bound is
assigned at that step.  Bounds materialize when the walk stops at a field
with no parameter: with a nonempty accumulated Eq-prefix `k` the scan
range becomes `(Included k, Included (k ++ [0x01]))`.  A query that
Eq-constrains every field of the index completes the loop without ever
assigning a bound, so its scan range is `(Unbounded, Unbounded)` — a full
scan of the index table (results stay correct only through the
second-stage `doc.matches` filter). -/
theorem index_query_eq_bounds (params : List (String × Param)) (val : String → Bytes) :
    (∀ (fields : List String),
      (∀ f ∈ fields, alGet params f = some (Param.Eq (val f))) →
      Index.query_bounds fields params = .ok (Bound.Unbounded, Bound.Unbounded))
  ∧ (∀ (pre : List String) (g : String) (rest : List String),
      (∀ f ∈ pre, alGet params f = some (Param.Eq (val f))) →
      alGet params g = none →
      sepJoin (pre.map val) ≠ [] →
      Index.query_bounds (pre ++ g :: rest) params =
        .ok (Bound.Included (sepJoin (pre.map val)),
             Bound.Included (sepJoin (pre.map val) ++ [1]))) := by
  constructor
  · intro fields h
    have := query_bounds_loop_all_eq params val fields h [] ⟨[]⟩
      Bound.Unbounded Bound.Unbounded
    simpa [Index.query_bounds] using this
  · intro pre g rest hpre hg hne
    have hfold : sepJoin (pre.map val) =
        (pre.foldl (fun (k : LexicographicKey) f => k.append_key_slice (val f)) ⟨[]⟩).bytes := by
      simp [sepJoin, List.foldl_map]
    have hstep := query_bounds_loop_all_eq params val pre hpre (g :: rest) ⟨[]⟩
      Bound.Unbounded Bound.Unbounded
    have hempty : ((pre.foldl (fun (k : LexicographicKey) f =>
        k.append_key_slice (val f)) ⟨[]⟩).bytes).isEmpty = false := by
      rw [← hfold]
      cases hsj : sepJoin (pre.map val) with
      | nil => exact absurd hsj hne
      | cons a l => rfl
    rw [Index.query_bounds, hstep, Index.query_bounds_loop]
    simp only [hg, hempty, Bool.false_eq_true, if_false]
    rw [hfold]
    rfl

/-- Witness for C3 at concrete inputs: index fields `["a", "b"]`, query
`{a ↦ Eq [7]}` (partial prefix) and index `["a"]` with the same query
(full Eq coverage). -/
theorem index_query_eq_bounds_witness :
    Index.query_bounds ["a", "b"] [("a", Param.Eq [7])] =
      .ok (Bound.Included [7], Bound.Included ([7] ++ [1]))
    ∧ Index.query_bounds ["a"] [("a", Param.Eq [7])] =
        .ok (Bound.Unbounded, Bound.Unbounded) := by
  constructor
  · have h := (index_query_eq_bounds [("a", Param.Eq [7])] (fun _ => [7])).2
      ["a"] "b" [] (by intro f hf; simp at hf; subst hf; rfl) rfl (by decide)
    simpa using h
  · exact (index_query_eq_bounds [("a", Param.Eq [7])] (fun _ => [7])).1
      ["a"] (by intro f hf; simp at hf; subst hf; rfl)

/-! ## C4: index selection never considers the primary index -/

/-- C4 (code bug): in `Collection::find_many` the primary index score is
computed into an unused binding and only secondary indexes enter the score
map; `Collection::find_one` never scores the primary index at all.  With
zero secondary indexes the score map is empty, so `find_many` fails with
`no index found` and `find_one` hits `unreachable!("no index found!")` —
neither degrades to a primary-table scan.  The third conjunct shows the
selection result is entirely independent of the primary index.  (The
repository's own `compound_primary_key` test calls `find_one` on a
collection with no secondary index and expects it to succeed.) -/
theorem find_plan_no_index_bug :
    (∀ (T : Type) (primary : Index T) (params : List (String × Param)),
      Collection.find_many_plan primary [] params = .error "no index found")
  ∧ (∀ (T : Type) (params : List (String × Param)),
      Collection.find_one_plan ([] : List (Index T)) params =
        .error "panic: no index found")
  ∧ (∀ (T : Type) (p q : Index T) (indices : List (Index T))
        (params : List (String × Param)),
      Collection.find_many_plan p indices params =
        Collection.find_many_plan q indices params) :=
  ⟨fun _ _ _ => rfl, fun _ _ => rfl, fun _ _ _ _ _ => rfl⟩

/-! ## C10: typed and byte-erased predicates agree -/

/-- C10: for every value type with an order-preserving (hence injective)
encoding, the typed predicate and the byte-erased predicate obtained
through the `Into<Param>` conversion agree on every value, for all
parameter shapes `Eq`, `Neq`, `Range` (with `Included` / `Excluded` /
`Unbounded` bounds), `In` and `Nin`:
`p.test(x) == Param::from(p).test(x.serialize_lex())`. -/
theorem param_typed_erased_agree {α : Type} [LinearOrder α] [DecidableEq α]
    (enc : α → Bytes)
    (hlt : ∀ x y, cmpL (enc x) (enc y) = .lt ↔ x < y)
    (hinj : ∀ x y, enc x = enc y ↔ x = y) :
    ∀ (p : ParamTyped α) (x : α),
      ParamTyped.test p x = Param.test (ParamTyped.toParam enc p) (enc x) := by
  have hgt : ∀ x y, cmpL (enc x) (enc y) = .gt ↔ y < x := by
    intro x y
    rw [cmpL_gt_iff_lt]
    exact hlt y x
  have hmem : ∀ (vs : List α) (x : α), enc x ∈ vs.map enc ↔ x ∈ vs := by
    intro vs x
    constructor
    · intro h
      obtain ⟨y, hy, hEnc⟩ := List.mem_map.mp h
      exact ((hinj y x).mp hEnc) ▸ hy
    · intro h
      exact List.mem_map.mpr ⟨x, h, rfl⟩
  have hlow : ∀ (lo : Bound α) (x : α),
      (match lo with
       | .Unbounded => true
       | .Included s => decide (s ≤ x)
       | .Excluded s => decide (s < x)) = lowerOk (boundMap enc lo) (enc x) := by
    intro lo x
    cases lo with
    | Unbounded => rfl
    | Included s =>
      simp only [boundMap, lowerOk]
      refine decide_eq_decide.mpr ?_
      rw [Ne, hgt s x, not_lt]
    | Excluded s =>
      simp only [boundMap, lowerOk]
      exact decide_eq_decide.mpr (hlt s x).symm
  have hupp : ∀ (hi : Bound α) (x : α),
      (match hi with
       | .Unbounded => true
       | .Included e => decide (x ≤ e)
       | .Excluded e => decide (x < e)) = upperOk (boundMap enc hi) (enc x) := by
    intro hi x
    cases hi with
    | Unbounded => rfl
    | Included e =>
      simp only [boundMap, upperOk]
      refine decide_eq_decide.mpr ?_
      rw [Ne, hgt x e, not_lt]
    | Excluded e =>
      simp only [boundMap, upperOk]
      exact decide_eq_decide.mpr (hlt x e).symm
  intro p x
  cases p with
  | Eq v =>
    simp only [ParamTyped.test, ParamTyped.toParam, Param.test]
    exact decide_eq_decide.mpr (hinj v x).symm
  | Neq v =>
    simp only [ParamTyped.test, ParamTyped.toParam, Param.test]
    exact decide_eq_decide.mpr (not_congr (hinj v x)).symm
  | Range lo hi =>
    simp only [ParamTyped.test, ParamTyped.toParam, Param.test, rangeContains,
      KeyRange.containsB]
    rw [hlow lo x, hupp hi x]
  | In vs =>
    simp only [ParamTyped.test, ParamTyped.toParam, Param.test]
    exact decide_eq_decide.mpr (hmem vs x).symm
  | Nin vs =>
    simp only [ParamTyped.test, ParamTyped.toParam, Param.test]
    exact congrArg (fun b => !b) (decide_eq_decide.mpr (hmem vs x).symm)

/-- Witness for C10 at `T = bool` with the bool codec and a concrete
range parameter. -/
theorem param_typed_erased_agree_witness :
    ParamTyped.test (ParamTyped.Range (Bound.Included false) (Bound.Excluded true)) false =
      Param.test
        (ParamTyped.toParam serialize_lex_bool
          (ParamTyped.Range (Bound.Included false) (Bound.Excluded true)))
        (serialize_lex_bool false) :=
  param_typed_erased_agree serialize_lex_bool
    (fun x y => by cases x <;> cases y <;> decide)
    (fun x y => by cases x <;> cases y <;> decide)
    (ParamTyped.Range (Bound.Included false) (Bound.Excluded true)) false

end AnonDB

namespace AnonDB

/-! ## Map lemmas -/

theorem alGet_alInsert {α β : Type} [DecidableEq α] (l : List (α × β)) (a b : α) (x : β) :
    alGet (alInsert l a x) b = if a = b then some x else alGet l b := by
  induction l with
  | nil => simp [alGet, alInsert]
  | cons e rest ih =>
    obtain ⟨k, v⟩ := e
    by_cases hk : k = a
    · subst hk
      by_cases hb : k = b <;> simp [alInsert, alGet, hb]
    · simp only [alInsert, if_neg hk, alGet]
      by_cases hkb : k = b
      · have hab : ¬a = b := fun h => hk (hkb.trans h.symm)
        simp [alGet, hkb, hab]
      · simp [alGet, hkb, ih]

/-! ## C8: `Collection::insert` -/

theorem KVState.get_insert (s : KVState) (n : String) (k v : Bytes) (m : String) (k' : Bytes) :
    (s.insert n k v).get m k' = if n = m ∧ k = k' then some v else s.get m k' := by
  simp only [KVState.insert, KVState.get, alGet_alInsert]
  by_cases hn : n = m
  · subst hn
    simp only [if_pos rfl, true_and]
    by_cases hk : k = k'
    · simp [alGet_alInsert, hk]
    · cases ht : alGet s.tables n with
      | none => simp [ht, alGet_alInsert, hk, alGet]
      | some t => simp [ht, alGet_alInsert, hk]
  · have : ¬(n = m ∧ k = k') := fun hc => hn hc.1
    simp [hn, this]

theorem KVState.get_insert_multimap (s : KVState) (n : String) (k v : Bytes)
    (m : String) (k' : Bytes) : (s.insert_multimap n k v).get m k' = s.get m k' := rfl

theorem KVState.get_multimap_insert (s : KVState) (n : String) (k v : Bytes)
    (m : String) (k' : Bytes) : (s.insert n k v).get_multimap m k' = s.get_multimap m k' := rfl

theorem KVState.get_multimap_insert_multimap_mem (s : KVState) (n : String) (k v : Bytes) :
    v ∈ (s.insert_multimap n k v).get_multimap n k := by
  unfold KVState.insert_multimap KVState.get_multimap
  simp only [alGet_alInsert, if_pos rfl]
  by_cases hv : v ∈ (alGet ((alGet s.multimaps n).getD []) k).getD []
  · simp [hv, alGet_alInsert]
  · simp [hv, alGet_alInsert]

theorem KVState.get_multimap_insert_multimap_frame (s : KVState) (n : String) (k v : Bytes)
    (m : String) (k' : Bytes) (h : n ≠ m) :
    (s.insert_multimap n k v).get_multimap m k' = s.get_multimap m k' := by
  simp [KVState.insert_multimap, KVState.get_multimap, alGet_alInsert, h]

/-- Specification of the secondary-index insertion fold inside
`Collection::insert`: with pairwise-distinct index table names and no
collision in any unique index, the fold succeeds, leaves untouched tables
unchanged, and leaves the expected entry in every index table. -/
theorem index_fold_spec {T : Type} (doc : T) (pk : Bytes) :
    ∀ (idxs : List (Index T)) (s : KVState),
      (∀ idx ∈ idxs, idx.options.unique = true →
        s.get idx.table_name (idx.serialize doc) = none) →
      List.Pairwise (fun a b : Index T => a.table_name ≠ b.table_name) idxs →
      ∃ s', idxs.foldlM (fun st idx => idx.insert st doc pk) s = .ok s'
        ∧ (∀ n, (∀ idx ∈ idxs, n ≠ idx.table_name) →
            (∀ k, s'.get n k = s.get n k) ∧
            (∀ k, s'.get_multimap n k = s.get_multimap n k))
        ∧ (∀ idx ∈ idxs,
            if idx.options.unique
            then s'.get idx.table_name (idx.serialize doc) = some pk
            else pk ∈ s'.get_multimap idx.table_name (idx.serialize doc)) := by
  intro idxs
  induction idxs with
  | nil =>
    intro s _ _
    exact ⟨s, rfl, fun n _ => ⟨fun _ => rfl, fun _ => rfl⟩, by simp⟩
  | cons idx rest ih =>
    intro s hfresh hpw
    rw [List.pairwise_cons] at hpw
    obtain ⟨hhead, htail⟩ := hpw
    rcases hu : idx.options.unique with _ | _
    · -- non-unique: multimap insert, never fails
      have hstep : idx.insert s doc pk =
          .ok (s.insert_multimap idx.table_name (idx.serialize doc) pk) := by
        simp [Index.insert, hu]
      set s1 := s.insert_multimap idx.table_name (idx.serialize doc) pk with hs1
      have hfresh' : ∀ j ∈ rest, j.options.unique = true →
          s1.get j.table_name (j.serialize doc) = none := by
        intro j hj hju
        rw [hs1, KVState.get_insert_multimap]
        exact hfresh j (by simp [hj]) hju
      obtain ⟨s', hfold, hframe, hpost⟩ := ih s1 hfresh' htail
      refine ⟨s', ?_, ?_, ?_⟩
      · rw [List.foldlM_cons, hstep]
        exact hfold
      · intro n hn
        have hn1 : ∀ j ∈ rest, n ≠ j.table_name := fun j hj => hn j (by simp [hj])
        have hnidx : n ≠ idx.table_name := hn idx (by simp)
        obtain ⟨hf1, hf2⟩ := hframe n hn1
        refine ⟨fun k => ?_, fun k => ?_⟩
        · rw [hf1 k, hs1, KVState.get_insert_multimap]
        · rw [hf2 k, hs1,
            KVState.get_multimap_insert_multimap_frame _ _ _ _ _ _ (fun h => hnidx h.symm)]
      · intro j hj
        rcases List.mem_cons.mp hj with hj | hj
        · subst hj
          simp only [hu, if_false, Bool.false_eq_true]
          have hn1 : ∀ u ∈ rest, j.table_name ≠ u.table_name := hhead
          obtain ⟨_, hf2⟩ := hframe j.table_name hn1
          rw [hf2]
          exact KVState.get_multimap_insert_multimap_mem s j.table_name (j.serialize doc) pk
        · exact hpost j hj
    · -- unique: checked single-valued insert
      have hkey : s.get idx.table_name (idx.serialize doc) = none :=
        hfresh idx (by simp) hu
      have hstep : idx.insert s doc pk =
          .ok (s.insert idx.table_name (idx.serialize doc) pk) := by
        simp [Index.insert, hu, hkey]
      set s1 := s.insert idx.table_name (idx.serialize doc) pk with hs1
      have hfresh' : ∀ j ∈ rest, j.options.unique = true →
          s1.get j.table_name (j.serialize doc) = none := by
        intro j hj hju
        rw [hs1, KVState.get_insert, if_neg (fun hc => hhead j hj hc.1)]
        exact hfresh j (by simp [hj]) hju
      obtain ⟨s', hfold, hframe, hpost⟩ := ih s1 hfresh' htail
      refine ⟨s', ?_, ?_, ?_⟩
      · rw [List.foldlM_cons, hstep]
        exact hfold
      · intro n hn
        have hn1 : ∀ j ∈ rest, n ≠ j.table_name := fun j hj => hn j (by simp [hj])
        have hnidx : n ≠ idx.table_name := hn idx (by simp)
        obtain ⟨hf1, hf2⟩ := hframe n hn1
        refine ⟨fun k => ?_, fun k => ?_⟩
        · rw [hf1 k, hs1, KVState.get_insert, if_neg (fun hc => hnidx hc.1.symm)]
        · rw [hf2 k, hs1, KVState.get_multimap_insert]
      · intro j hj
        rcases List.mem_cons.mp hj with hj | hj
        · subst hj
          simp only [hu, if_true]
          have hn1 : ∀ u ∈ rest, j.table_name ≠ u.table_name := hhead
          obtain ⟨hf1, _⟩ := hframe j.table_name hn1
          rw [hf1, hs1, KVState.get_insert, if_pos ⟨rfl, rfl⟩]
        · exact hpost j hj

/-- C8 counterexample: a fresh primary key does not guarantee a stored
document.  `cexCollection` has primary key = first component and a unique
secondary index over the second component; `cexState0` holds the document
(0, 5).  Inserting (1, 5) presents a fresh primary key, yet
`Collection::insert` fails on the unique secondary index — refuting the
claim's assertion that "an insert of a fresh primary key stores the
serialized document under that key and an entry in every secondary
index". -/
theorem collection_insert_fresh_pk_cex :
    KVState.get cexState0 "docs" (cexCollection.primary_serialize (1, 5)) = none
    ∧ Collection.insert cexCollection cexState0 (1, 5) =
        .error "uniqueness constraint violated"
    ∧ (KVState.get cexState0 "docs" (cexCollection.primary_serialize (0, 5))).isSome = true :=
  ⟨rfl, rfl, rfl⟩

/-- C8 (amended): inserting a document whose primary key equals that of a
stored document fails with the duplicate-primary-key error, and any failed
`Collection::insert` leaves every table unchanged because the write
transaction is never committed; an insert of a fresh primary key that also
collides with no unique secondary index stores the serialized document
under the primary key and an entry in every secondary index within one
atomically committed transaction (index table names assumed pairwise
distinct and distinct from the collection table, as validated at database
open). -/
theorem collection_insert_spec {T : Type} (c : Collection T) (s : KVState) (doc : T) :
    ((s.get c.name (c.primary_serialize doc)).isSome = true →
      Collection.insert c s doc = .error "duplicate primary key")
  ∧ (∀ e, Collection.insert c s doc = .error e → Collection.insert_state c s doc = s)
  ∧ (s.get c.name (c.primary_serialize doc) = none →
     (∀ idx ∈ c.indices, idx.options.unique = true →
        s.get idx.table_name (idx.serialize doc) = none) →
     (∀ idx ∈ c.indices, idx.table_name ≠ c.name) →
     List.Pairwise (fun a b : Index T => a.table_name ≠ b.table_name) c.indices →
     ∃ s', Collection.insert c s doc = .ok s'
       ∧ Collection.insert_state c s doc = s'
       ∧ s'.get c.name (c.primary_serialize doc) = some (c.doc_bytes doc)
       ∧ (∀ idx ∈ c.indices,
            if idx.options.unique
            then s'.get idx.table_name (idx.serialize doc) = some (c.primary_serialize doc)
            else (c.primary_serialize doc) ∈
              s'.get_multimap idx.table_name (idx.serialize doc))) := by
  refine ⟨?_, ?_, ?_⟩
  · intro hdup
    simp [Collection.insert, hdup]
  · intro e he
    simp [Collection.insert_state, he]
  · intro hfreshpk hfreshidx hnotname hpw
    have hnone : (s.get c.name (c.primary_serialize doc)).isSome = false := by
      simp [hfreshpk]
    set s1 := s.insert c.name (c.primary_serialize doc) (c.doc_bytes doc) with hs1
    have hfresh1 : ∀ idx ∈ c.indices, idx.options.unique = true →
        s1.get idx.table_name (idx.serialize doc) = none := by
      intro idx hidx hu
      rw [hs1, KVState.get_insert]
      have : ¬(c.name = idx.table_name ∧
          c.primary_serialize doc = idx.serialize doc) := by
        intro ⟨h1, _⟩
        exact hnotname idx hidx h1.symm
      rw [if_neg this]
      exact hfreshidx idx hidx hu
    obtain ⟨s', hfold, hframe, hpost⟩ := index_fold_spec doc (c.primary_serialize doc)
      c.indices s1 hfresh1 hpw
    have hins : Collection.insert c s doc = .ok s' := by
      simp only [Collection.insert, hnone, Bool.false_eq_true, if_false, ← hs1, hfold]
      rfl
    refine ⟨s', hins, by simp [Collection.insert_state, hins], ?_, hpost⟩
    have hcname : ∀ idx ∈ c.indices, c.name ≠ idx.table_name :=
      fun idx hidx => fun h => hnotname idx hidx h.symm
    obtain ⟨hf1, _⟩ := hframe c.name hcname
    rw [hf1, hs1, KVState.get_insert]
    simp

/-- Witness for C8 at concrete inputs: the duplicate-key branch on
`cexState0` and the successful-insert branch on the empty state. -/
theorem collection_insert_spec_witness :
    Collection.insert cexCollection cexState0 (0, 5) = .error "duplicate primary key"
    ∧ ∃ s', Collection.insert cexCollection ⟨[], []⟩ (0, 5) = .ok s'
        ∧ Collection.insert_state cexCollection ⟨[], []⟩ (0, 5) = s'
        ∧ KVState.get s' "docs" (cexCollection.primary_serialize (0, 5)) =
            some (cexCollection.doc_bytes (0, 5))
        ∧ (∀ idx ∈ cexCollection.indices,
            if idx.options.unique
            then KVState.get s' idx.table_name (idx.serialize (0, 5)) =
              some (cexCollection.primary_serialize (0, 5))
            else (cexCollection.primary_serialize (0, 5)) ∈
              KVState.get_multimap s' idx.table_name (idx.serialize (0, 5))) := by
  constructor
  · exact (collection_insert_spec cexCollection cexState0 (0, 5)).1 rfl
  · obtain ⟨s', h1, h2, h3, h4⟩ :=
      (collection_insert_spec cexCollection ⟨[], []⟩ (0, 5)).2.2 rfl
        (by intro idx hidx _; simp [cexCollection] at hidx; subst hidx; rfl)
        (by intro idx hidx; simp [cexCollection] at hidx; subst hidx; decide)
        (by simp [cexCollection])
    exact ⟨s', h1, h2, h3, h4⟩

/-! ## C9: reads on a never-created table -/

/-- C9 (code bug): on a never-created table, `get` and `count` behave as
an empty table through both the KV handle and a read transaction, and
`range` through a read transaction yields an empty iterator — but
`RedbKV::range` (and `scan`, which is built on it) opens the table with
`tx.read.open_table(..)?` and propagates redb's `TableDoesNotExist` error
instead.  The repository's own `test/empty.rs` asserts the empty-iterator
behaviour for ALL read implementations, including the KV handle. -/
theorem read_missing_table_behaviour (s : KVState) (table : String) (key : Bytes)
    (r : KeyRange Bytes) :
    alGet s.tables table = none →
      RedbReadTransaction.get s table key = none
      ∧ RedbReadTransaction.count s table = 0
      ∧ RedbReadTransaction.range s table r = .ok []
      ∧ RedbKV.get s table key = none
      ∧ RedbKV.count s table = 0
      ∧ RedbKV.range s table r = .error "TableDoesNotExist"
      ∧ RedbKV.scan s table = .error "TableDoesNotExist" := by
  intro h
  refine ⟨?_, ?_, ?_, ?_, ?_, ?_, ?_⟩ <;>
    simp [RedbReadTransaction.get, RedbReadTransaction.count, RedbReadTransaction.range,
      RedbKV.get, RedbKV.count, RedbKV.range, RedbKV.scan, h]

/-- Witness for C9 at the empty KV and a concrete table name. -/
theorem read_missing_table_behaviour_witness :
    RedbReadTransaction.get ⟨[], []⟩ "missing" [1] = none
    ∧ RedbReadTransaction.count ⟨[], []⟩ "missing" = 0
    ∧ RedbReadTransaction.range ⟨[], []⟩ "missing" ⟨Bound.Unbounded, Bound.Unbounded⟩ = .ok []
    ∧ RedbKV.get ⟨[], []⟩ "missing" [1] = none
    ∧ RedbKV.count ⟨[], []⟩ "missing" = 0
    ∧ RedbKV.range ⟨[], []⟩ "missing" ⟨Bound.Unbounded, Bound.Unbounded⟩ =
        .error "TableDoesNotExist"
    ∧ RedbKV.scan ⟨[], []⟩ "missing" = .error "TableDoesNotExist" :=
  read_missing_table_behaviour ⟨[], []⟩ "missing" [1] ⟨Bound.Unbounded, Bound.Unbounded⟩ rfl

end AnonDB

namespace AnonDB

/-! ## Journal lemmas -/

theorem except_bind_ok {ε α β : Type} (a : α) (f : α → Except ε β) :
    (Except.ok a >>= f) = f a := rfl

theorem except_bind_error {ε α β : Type} (e : ε) (f : α → Except ε β) :
    ((Except.error e : Except ε α) >>= f) = .error e := rfl

/-- Inversion of a successful `ActiveTransaction::commit`. -/
theorem commit_inv (hashTx : JournalTransaction → Hash) {db : JournalDB}
    {q : List TransactionOperation} {d : TableDir} {db' : JournalDB}
    {tx : JournalTransaction}
    (h : ActiveTransaction.commit hashTx db q d = .ok (db', tx)) :
    ∃ st, Journal.get_state db = .ok st ∧
      db' = Journal.record_commit hashTx db st q d ∧ tx = Journal.mk_tx st q := by
  unfold ActiveTransaction.commit at h
  cases hst : Journal.get_state db with
  | error e =>
    rw [hst, except_bind_error] at h
    exact absurd h (by simp)
  | ok st =>
    rw [hst, except_bind_ok] at h
    simp only [Except.ok.injEq, Prod.mk.injEq] at h
    exact ⟨st, rfl, h.1.symm, h.2.symm⟩

/-- Replaying a committed transaction whose operations survive the replay
loop verbatim reproduces the commit exactly. -/
theorem append_tx_of_commit_ops (hashTx : JournalTransaction → Hash)
    {db : JournalDB} {p : List TransactionOperation} {db' : JournalDB}
    {tx : JournalTransaction}
    (h : Journal.commit_ops hashTx db p = .ok (db', tx))
    (hcanon : ∀ ctx : ReplayCtx, Journal.run_operations p db.tables = .ok ctx →
      ctx.enq = p) :
    Journal.append_tx hashTx db tx = .ok db' := by
  unfold Journal.commit_ops at h
  cases hrun : Journal.run_operations p db.tables with
  | error e =>
    rw [hrun, except_bind_error] at h
    exact absurd h (by simp)
  | ok ctx =>
    rw [hrun, except_bind_ok] at h
    obtain ⟨st, hst, hdb', htx⟩ := commit_inv hashTx h
    have henq : ctx.enq = p := hcanon ctx hrun
    subst htx
    unfold Journal.append_tx
    rw [hst, except_bind_ok]
    rw [if_neg (fun hne => hne rfl)]
    rw [if_neg (by simp [Journal.mk_tx])]
    rw [if_neg (by simp [Journal.mk_tx, List.getLast?_concat])]
    have hdrop : (Journal.mk_tx st p).operations.dropLast = p := by
      simp [Journal.mk_tx, List.dropLast_concat]
    rw [hdrop, hrun, except_bind_ok, henq]
    unfold ActiveTransaction.commit
    rw [hst, except_bind_ok, except_bind_ok]
    rw [hdb']

/-- Replay determinism for canonical programs, generalized over the start
database. -/
theorem source_replay_aux (hashTx : JournalTransaction → Hash) :
    ∀ (progs : List (List TransactionOperation)) (db0 D : JournalDB)
      (txs : List JournalTransaction),
      Journal.source_run hashTx progs db0 = .ok (D, txs) →
      (∀ p ∈ progs, ∀ (dir : TableDir) (ctx : ReplayCtx),
        Journal.run_operations p dir = .ok ctx → ctx.enq = p) →
      Journal.replay_run hashTx txs db0 = .ok D := by
  intro progs
  induction progs with
  | nil =>
    intro db0 D txs h _
    simp only [Journal.source_run, Except.ok.injEq, Prod.mk.injEq] at h
    rw [← h.2, ← h.1]
    rfl
  | cons p ps ih =>
    intro db0 D txs h hcanon
    unfold Journal.source_run at h
    cases hc : Journal.commit_ops hashTx db0 p with
    | error e => rw [hc, except_bind_error] at h; exact absurd h (by simp)
    | ok r =>
      obtain ⟨db1, t⟩ := r
      rw [hc, except_bind_ok] at h
      cases hs : Journal.source_run hashTx ps db1 with
      | error e => rw [hs, except_bind_error] at h; exact absurd h (by simp)
      | ok r2 =>
        obtain ⟨D', rest⟩ := r2
        rw [hs, except_bind_ok] at h
        simp only [Except.ok.injEq, Prod.mk.injEq] at h
        obtain ⟨hD, htxs⟩ := h
        rw [← htxs, ← hD]
        have happ : Journal.append_tx hashTx db0 t = .ok db1 :=
          append_tx_of_commit_ops hashTx hc
            (fun ctx hctx => hcanon p (by simp) db0.tables ctx hctx)
        unfold Journal.replay_run
        rw [List.foldlM_cons, happ, except_bind_ok]
        exact ih db1 D' rest hs (fun q hq => hcanon q (by simp [hq]))

theorem enumHFrom_length (hashTx : JournalTransaction → Hash) :
    ∀ (ts : List JournalTransaction) (k : Nat),
      (Journal.enumHFrom hashTx k ts).length = ts.length := by
  intro ts
  induction ts with
  | nil => intro k; rfl
  | cons t ts ih => intro k; simp [Journal.enumHFrom, ih]

theorem alGet_enumHFrom (hashTx : JournalTransaction → Hash) :
    ∀ (ts : List JournalTransaction) (k i : Nat),
      alGet (Journal.enumHFrom hashTx k ts) (k + i) = (ts.get? i).map hashTx := by
  intro ts
  induction ts with
  | nil => intro k i; rfl
  | cons t ts ih =>
    intro k i
    cases i with
    | zero => simp [Journal.enumHFrom, alGet]
    | succ j =>
      have hne : k ≠ k + (j + 1) := by omega
      have harith : k + (j + 1) = (k + 1) + j := by omega
      simp only [Journal.enumHFrom, alGet, if_neg hne]
      rw [harith, ih (k + 1) j, List.get?_cons_succ]

theorem alGet_enumHFrom_lt (hashTx : JournalTransaction → Hash)
    (ts : List JournalTransaction) (k i : Nat) (h : i < k) :
    alGet (Journal.enumHFrom hashTx k ts) i = none := by
  induction ts generalizing k with
  | nil => rfl
  | cons t ts ih =>
    have hne : k ≠ i := by omega
    simp only [Journal.enumHFrom, alGet, if_neg hne]
    exact ih (k + 1) (by omega)

theorem enumHFrom_append (hashTx : JournalTransaction → Hash) :
    ∀ (ts : List JournalTransaction) (k : Nat) (t : JournalTransaction),
      Journal.enumHFrom hashTx k (ts ++ [t]) =
        Journal.enumHFrom hashTx k ts ++ [(k + ts.length, hashTx t)] := by
  intro ts
  induction ts with
  | nil => intro k t; simp [Journal.enumHFrom]
  | cons u ts ih =>
    intro k t
    show (k, hashTx u) :: Journal.enumHFrom hashTx (k + 1) (ts ++ [t]) = _
    rw [ih (k + 1) t]
    simp only [List.cons_append, List.length_cons]
    have h : k + 1 + ts.length = k + (ts.length + 1) := by omega
    rw [h]
    rfl

theorem alInsert_enumHFrom (hashTx : JournalTransaction → Hash) :
    ∀ (ts : List JournalTransaction) (k : Nat) (h : Hash),
      alInsert (Journal.enumHFrom hashTx k ts) (k + ts.length) h =
        Journal.enumHFrom hashTx k ts ++ [(k + ts.length, h)] := by
  intro ts
  induction ts with
  | nil => intro k h; simp [Journal.enumHFrom, alInsert]
  | cons t ts ih =>
    intro k h
    have hne : k ≠ k + (t :: ts).length := by simp
    simp only [Journal.enumHFrom, alInsert, if_neg hne, List.cons_append]
    have harith : k + (t :: ts).length = (k + 1) + ts.length := by
      simp only [List.length_cons]
      omega
    rw [harith, ih]

/-- The shape of `get_state` on a database whose journal table holds the
enumerated hashes of `txs`. -/
theorem get_state_of_enum (hashTx : JournalTransaction → Hash) (db : JournalDB)
    (txs : List JournalTransaction)
    (hj : db.journal_table = Journal.enumHFrom hashTx 0 txs) :
    Journal.get_state db = .ok ⟨txs.length, Journal.chainEnd hashTx txs⟩ := by
  unfold Journal.get_state
  rw [hj, enumHFrom_length]
  cases htx : txs with
  | nil => simp [Journal.chainEnd, Journal.enumHFrom]
  | cons t ts =>
    have hlen : 0 < (t :: ts).length := by simp
    rw [if_pos hlen]
    have hget : alGet (Journal.enumHFrom hashTx 0 (t :: ts)) (0 + ((t :: ts).length - 1)) =
        ((t :: ts).get? ((t :: ts).length - 1)).map hashTx :=
      alGet_enumHFrom hashTx (t :: ts) 0 ((t :: ts).length - 1)
    rw [Nat.zero_add] at hget
    rw [hget]
    have hlast : (t :: ts).get? ((t :: ts).length - 1) = (t :: ts).getLast? := by
      rw [List.getLast?_eq_getElem?, List.get?_eq_getElem?]
    rw [hlast]
    cases hgl : (t :: ts).getLast? with
    | none => simp at hgl
    | some u => simp [Journal.chainEnd, hgl]

theorem chainOk_append (hashTx : JournalTransaction → Hash)
    (t : JournalTransaction) :
    ∀ (ts : List JournalTransaction) (z : Hash),
      Journal.chainOk hashTx z ts →
      t.last_tx_hash = (match ts.getLast? with
        | some u => hashTx u
        | none => z) →
      Journal.chainOk hashTx z (ts ++ [t]) := by
  intro ts
  induction ts with
  | nil =>
    intro z _ hlast
    simp only [List.getLast?_nil] at hlast
    exact ⟨hlast, trivial⟩
  | cons u ts ih =>
    intro z hok hlast
    obtain ⟨h1, h2⟩ := hok
    refine ⟨h1, ih (hashTx u) h2 ?_⟩
    rw [hlast]
    cases hts : ts with
    | nil => simp
    | cons v vs =>
      cases hgl : (v :: vs).getLast? with
      | none => simp at hgl
      | some w => simp [List.getLast?_cons_cons, hgl]

/-- The journal invariant along reachable states: the chain is contiguous
from the zero seed and the journal table is exactly the enumerated hash
list of the recorded transactions. -/
theorem reach_inv (hashTx : JournalTransaction → Hash) {db : JournalDB}
    {txs : List JournalTransaction} (h : Journal.Reach hashTx db txs) :
    Journal.chainOk hashTx zero_seed txs ∧
      db.journal_table = Journal.enumHFrom hashTx 0 txs := by
  induction h with
  | empty => exact ⟨trivial, rfl⟩
  | @step db txs q dir db' tx _ hcommit ih =>
    obtain ⟨hchain, hj⟩ := ih
    obtain ⟨st, hst, hdb', htx⟩ := commit_inv hashTx hcommit
    have hstval : st = ⟨txs.length, Journal.chainEnd hashTx txs⟩ := by
      have := get_state_of_enum hashTx db txs hj
      rw [hst] at this
      exact (Except.ok.injEq _ _).mp this
    constructor
    · refine chainOk_append hashTx tx txs zero_seed hchain ?_
      rw [htx, hstval]
      rfl
    · rw [hdb']
      show alInsert db.journal_table st.next_tx_index
          (hashTx (Journal.mk_tx st q)) = _
      rw [← htx, hj, hstval]
      show alInsert (Journal.enumHFrom hashTx 0 txs) txs.length (hashTx tx) = _
      have h0 : txs.length = 0 + txs.length := by omega
      rw [h0, alInsert_enumHFrom, ← enumHFrom_append]

theorem chainOk_get_zero (hashTx : JournalTransaction → Hash)
    {z : Hash} {ts : List JournalTransaction} (h : Journal.chainOk hashTx z ts)
    {t : JournalTransaction} (h0 : ts.get? 0 = some t) : t.last_tx_hash = z := by
  cases ts with
  | nil => simp at h0
  | cons u us =>
    simp only [List.get?_cons_zero, Option.some.injEq] at h0
    rw [← h0]
    exact h.1

theorem chainOk_get_succ (hashTx : JournalTransaction → Hash) :
    ∀ (ts : List JournalTransaction) (z : Hash) (i : Nat)
      (a b : JournalTransaction),
      Journal.chainOk hashTx z ts →
      ts.get? i = some a → ts.get? (i + 1) = some b →
      b.last_tx_hash = hashTx a := by
  intro ts
  induction ts with
  | nil => intro z i a b _ ha _; simp at ha
  | cons u us ih =>
    intro z i a b hok ha hb
    cases i with
    | zero =>
      simp only [List.get?_cons_zero, Option.some.injEq] at ha
      subst ha
      exact chainOk_get_zero hashTx hok.2 hb
    | succ j =>
      exact ih (hashTx u) j a b hok.2 ha hb

/-- Reachability of the endpoint of a source run. -/
theorem source_run_reach (hashTx : JournalTransaction → Hash) :
    ∀ (progs : List (List TransactionOperation)) (db0 D : JournalDB)
      (acc txs : List JournalTransaction),
      Journal.Reach hashTx db0 acc →
      Journal.source_run hashTx progs db0 = .ok (D, txs) →
      Journal.Reach hashTx D (acc ++ txs) := by
  intro progs
  induction progs with
  | nil =>
    intro db0 D acc txs hreach h
    simp only [Journal.source_run, Except.ok.injEq, Prod.mk.injEq] at h
    rw [← h.2, ← h.1]
    simpa using hreach
  | cons p ps ih =>
    intro db0 D acc txs hreach h
    unfold Journal.source_run at h
    cases hc : Journal.commit_ops hashTx db0 p with
    | error e => rw [hc, except_bind_error] at h; exact absurd h (by simp)
    | ok r =>
      obtain ⟨db1, t⟩ := r
      rw [hc, except_bind_ok] at h
      cases hs : Journal.source_run hashTx ps db1 with
      | error e => rw [hs, except_bind_error] at h; exact absurd h (by simp)
      | ok r2 =>
        obtain ⟨D', rest⟩ := r2
        rw [hs, except_bind_ok] at h
        simp only [Except.ok.injEq, Prod.mk.injEq] at h
        obtain ⟨hD, htxs⟩ := h
        have hstep : Journal.Reach hashTx db1 (acc ++ [t]) := by
          unfold Journal.commit_ops at hc
          cases hrun : Journal.run_operations p db0.tables with
          | error e => rw [hrun, except_bind_error] at hc; exact absurd hc (by simp)
          | ok ctx =>
            rw [hrun, except_bind_ok] at hc
            exact Journal.Reach.step hreach hc
        have hrest := ih db1 D' (acc ++ [t]) rest hstep hs
        rw [← htxs, ← hD]
        simpa [List.append_assoc] using hrest

end AnonDB

namespace AnonDB

theorem except_pure {ε α : Type} (a : α) : (pure a : Except ε α) = .ok a := rfl

/-! ## C5: journal replay determinism -/

/-- C5 counterexample: committing from an empty database a transaction
that opens the same table twice (legal through the `ActiveTransaction`
API) and then a second transaction, yields a pair of journaled
transactions that CANNOT be replayed by `append_tx` onto a fresh empty
database: the replay loop deduplicates the `OpenTable` operation, so the
re-recorded first transaction hashes differently and the second
application fails with the divergence error — refuting the claim for
arbitrary committed sequences. -/
theorem journal_replay_determinism_cex :
    Journal.source_run hashTx0 [cexProg1, cexProg2] Journal.emptyDB = .ok (cexDB, cexTxs)
    ∧ Journal.replay_run hashTx0 cexTxs Journal.emptyDB =
        .error "cannot apply transaction to divergent last_tx_hash" :=
  ⟨rfl, rfl⟩

/-- C5 (amended): for any sequence of canonical journaled transactions
committed from an empty journal database producing database `D` — where
canonical means the transaction's operation list is reproduced verbatim by
the replay loop, in particular no table is opened twice within one
transaction — applying those same transactions in order via `append_tx` to
a freshly created empty in-memory journal database succeeds and yields
exactly `D`: the same entries in every non-system table, a journal table
of equal length, and `journal[i]` holding the hash of the i-th applied
transaction. -/
theorem journal_replay_determinism (hashTx : JournalTransaction → Hash)
    (progs : List (List TransactionOperation)) (D : JournalDB)
    (txs : List JournalTransaction)
    (hsrc : Journal.source_run hashTx progs Journal.emptyDB = .ok (D, txs))
    (hcanon : ∀ p ∈ progs, ∀ (dir : TableDir) (ctx : ReplayCtx),
      Journal.run_operations p dir = .ok ctx → ctx.enq = p) :
    Journal.replay_run hashTx txs Journal.emptyDB = .ok D
    ∧ D.journal_table.length = txs.length
    ∧ (∀ i a, txs.get? i = some a → alGet D.journal_table i = some (hashTx a)) := by
  have hrep := source_replay_aux hashTx progs Journal.emptyDB D txs hsrc hcanon
  have hreach : Journal.Reach hashTx D txs := by
    have h := source_run_reach hashTx progs Journal.emptyDB D [] txs
      Journal.Reach.empty hsrc
    simpa using h
  obtain ⟨_, hj⟩ := reach_inv hashTx hreach
  refine ⟨hrep, by rw [hj, enumHFrom_length], ?_⟩
  intro i a ha
  rw [hj]
  have hg := alGet_enumHFrom hashTx txs 0 i
  rw [Nat.zero_add] at hg
  rw [hg, ha]
  rfl

/-- Witness for C5: specification scenario 5 — tx₁ inserts `("a", 1)`,
tx₂ inserts `("b", 2)` and removes `("a")`; both canonical. -/
theorem journal_replay_determinism_witness :
    Journal.replay_run hashTx0 wTxs Journal.emptyDB = .ok wDB
    ∧ wDB.journal_table.length = wTxs.length
    ∧ (∀ i a, wTxs.get? i = some a →
        alGet wDB.journal_table i = some (hashTx0 a)) := by
  have hcanon : ∀ p ∈ [wProg1, wProg2], ∀ (dir : TableDir) (ctx : ReplayCtx),
      Journal.run_operations p dir = .ok ctx → ctx.enq = p := by
    intro p hp dir ctx hctx
    rcases List.mem_cons.mp hp with hp1 | hp2
    · subst hp1
      simp only [wProg1, Journal.run_operations, List.foldlM_cons, List.foldlM_nil,
        Journal.run_operation, List.mem_singleton, List.not_mem_nil, if_false,
        if_true, except_bind_ok, except_pure, reduceIte] at hctx
      injection hctx with h
      rw [← h]
      rfl
    · rcases List.mem_cons.mp hp2 with hp1 | hp3
      · subst hp1
        simp only [wProg2, Journal.run_operations, List.foldlM_cons, List.foldlM_nil,
          Journal.run_operation, List.mem_singleton, List.not_mem_nil, if_false,
          if_true, except_bind_ok, except_pure, reduceIte] at hctx
        injection hctx with h
        rw [← h]
        rfl
      · simp at hp3
  exact journal_replay_determinism hashTx0 [wProg1, wProg2] wDB wTxs rfl hcanon

/-! ## C6: the hash chain invariant -/

/-- C6: in every journal state reachable from an empty database by
`ActiveTransaction::commit` and `Journal::append_tx`, the hash chain is
contiguous: the transaction recorded at journal index 0 carries
`last_tx_hash` equal to the 32-zero-byte seed; for every `i`, the
transaction at index `i + 1` carries `last_tx_hash` equal to the hash of
the transaction at index `i`; `get_state` returns
`next_tx_index = journal_table.len()` with `last_tx_hash` equal to the
hash of the last recorded transaction (the zero seed when the table is
empty); and `journal[i]` holds the hash of the transaction recorded at
index `i`. -/
theorem journal_hash_chain (hashTx : JournalTransaction → Hash) (db : JournalDB)
    (txs : List JournalTransaction) (h : Journal.Reach hashTx db txs) :
    (∀ t, txs.get? 0 = some t → t.last_tx_hash = zero_seed)
  ∧ (∀ i a b, txs.get? i = some a → txs.get? (i + 1) = some b →
      b.last_tx_hash = hashTx a)
  ∧ Journal.get_state db = .ok ⟨txs.length, Journal.chainEnd hashTx txs⟩
  ∧ (∀ i a, txs.get? i = some a → alGet db.journal_table i = some (hashTx a)) := by
  obtain ⟨hchain, hj⟩ := reach_inv hashTx h
  refine ⟨fun t h0 => chainOk_get_zero hashTx hchain h0,
          fun i a b ha hb => chainOk_get_succ hashTx txs zero_seed i a b hchain ha hb,
          get_state_of_enum hashTx db txs hj, ?_⟩
  intro i a ha
  rw [hj]
  have hg := alGet_enumHFrom hashTx txs 0 i
  rw [Nat.zero_add] at hg
  rw [hg, ha]
  rfl

/-- Witness for C6 at a concrete one-commit database. -/
theorem journal_hash_chain_witness :
    Journal.get_state witDB1 = .ok ⟨1, Journal.chainEnd hashTx0 [witTx1]⟩
    ∧ (∀ t, [witTx1].get? 0 = some t → t.last_tx_hash = zero_seed)
    ∧ (∀ i a, [witTx1].get? i = some a →
        alGet witDB1.journal_table i = some (hashTx0 a)) := by
  have hc : ActiveTransaction.commit hashTx0 Journal.emptyDB
      [.OpenTable "t"] [("t", [])] = .ok (witDB1, witTx1) := rfl
  have hr : Journal.Reach hashTx0 witDB1 [witTx1] :=
    Journal.Reach.step Journal.Reach.empty hc
  have h := journal_hash_chain hashTx0 witDB1 [witTx1] hr
  exact ⟨h.2.2.1, h.1, h.2.2.2⟩

/-! ## C7: divergence rejection -/

/-- C7: if the journal's current state has `last_tx_hash = H` and
`append_tx` is invoked with a transaction carrying a different
`last_tx_hash`, then `append_tx` fails with the divergence error before
performing any write, and the database the caller keeps is unchanged — in
particular `get_state` returns the same state as before the call. -/
theorem append_tx_divergence (hashTx : JournalTransaction → Hash) (db : JournalDB)
    (tx : JournalTransaction) (st : JournalState)
    (hst : Journal.get_state db = .ok st)
    (hdiv : st.last_tx_hash ≠ tx.last_tx_hash) :
    Journal.append_tx hashTx db tx =
      .error "cannot apply transaction to divergent last_tx_hash"
    ∧ Journal.append_tx_state hashTx db tx = db
    ∧ Journal.get_state (Journal.append_tx_state hashTx db tx) = Journal.get_state db := by
  have h1 : Journal.append_tx hashTx db tx =
      .error "cannot apply transaction to divergent last_tx_hash" := by
    unfold Journal.append_tx
    rw [hst, except_bind_ok, if_pos hdiv]
  exact ⟨h1, by simp [Journal.append_tx_state, h1],
         by simp [Journal.append_tx_state, h1]⟩

/-- Witness for C7: an empty journal (state hash = zero seed) rejects a
transaction chained to the hash `[9]`. -/
theorem append_tx_divergence_witness :
    Journal.append_tx hashTx0 Journal.emptyDB ⟨[9], [.Commit]⟩ =
      .error "cannot apply transaction to divergent last_tx_hash"
    ∧ Journal.append_tx_state hashTx0 Journal.emptyDB ⟨[9], [.Commit]⟩ =
        Journal.emptyDB := by
  have h := append_tx_divergence hashTx0 Journal.emptyDB ⟨[9], [.Commit]⟩
    ⟨0, zero_seed⟩ rfl (by decide)
  exact ⟨h.1, h.2.1⟩

end AnonDB
